import Mathlib

/-!
Verification development for the cardillo constrained-multibody library.

The Python source is shallowly embedded: system/model callbacks become
function-valued fields of structures, numpy vectors become functions
`Fin n → ℚ` (or `Fin n → ℝ` where Euclidean norms and disk projections
occur, which are irrational in general), `np.concatenate`d block vectors
become functions on sum types, and sparse block matrices (`scipy bmat`)
become `Matrix` on the same sum types.  The external sparse linear solver
`scipy.sparse.linalg.spsolve` is passed in as a function argument; that it
returns a solution of the system it is given is a hypothesis, discharged
at concrete witnesses.  Python `assert` failures and raised exceptions are
modelled with `Option`/`Except`.
-/

namespace Cardillo

/-- Index type of the unknowns `[u_dot; la_g; la_gamma]` of the block
linear systems assembled by `consistent_initial_conditions`
(solver/_base.py) and by `Moreau.__step_fixed_point` (solver/moreau.py):
`nu` velocity components, then `nla_g` position-level bilateral
multipliers, then `nla_gamma` velocity-level bilateral multipliers. -/
abbrev TriIdx (nu nla_g nla_gamma : ℕ) :=
  Fin nu ⊕ (Fin nla_g ⊕ Fin nla_gamma)

/-! ## Consistent initial conditions (src/cardillo/solver/_base.py) -/

/-- The uniform system callback contract consumed by
`consistent_initial_conditions` (solver/_base.py, lines 6-105): initial
data `t0, q0, u0`, mass matrix `M`, force vector `h`, bilateral constraint
Jacobians `W_g, W_gamma` and the quadratic parts `zeta_g, zeta_gamma` of
the second constraint derivatives, contact force directions `W_N, W_F`
with initial multipliers `la_N0, la_F0`, the unilateral gap `g_N` and its
derivatives, the kinematic map `q_dot`, and the bilateral residuals
`g, g_dot, g_ddot, gamma, gamma_dot, g_S` used by the feasibility
assertions. -/
structure CICSystem (nq nu nla_g nla_gamma nla_N nla_F nla_S : ℕ) where
  t0 : ℚ
  q0 : Fin nq → ℚ
  u0 : Fin nu → ℚ
  g_N : ℚ → (Fin nq → ℚ) → Fin nla_N → ℚ
  g_N_dot : ℚ → (Fin nq → ℚ) → (Fin nu → ℚ) → Fin nla_N → ℚ
  g_N_ddot : ℚ → (Fin nq → ℚ) → (Fin nu → ℚ) → (Fin nu → ℚ) → Fin nla_N → ℚ
  q_dot : ℚ → (Fin nq → ℚ) → (Fin nu → ℚ) → Fin nq → ℚ
  M : ℚ → (Fin nq → ℚ) → Matrix (Fin nu) (Fin nu) ℚ
  h : ℚ → (Fin nq → ℚ) → (Fin nu → ℚ) → Fin nu → ℚ
  W_g : ℚ → (Fin nq → ℚ) → Matrix (Fin nu) (Fin nla_g) ℚ
  W_gamma : ℚ → (Fin nq → ℚ) → Matrix (Fin nu) (Fin nla_gamma) ℚ
  zeta_g : ℚ → (Fin nq → ℚ) → (Fin nu → ℚ) → Fin nla_g → ℚ
  zeta_gamma : ℚ → (Fin nq → ℚ) → (Fin nu → ℚ) → Fin nla_gamma → ℚ
  W_N : ℚ → (Fin nq → ℚ) → Matrix (Fin nu) (Fin nla_N) ℚ
  W_F : ℚ → (Fin nq → ℚ) → Matrix (Fin nu) (Fin nla_F) ℚ
  la_N0 : Fin nla_N → ℚ
  la_F0 : Fin nla_F → ℚ
  g : ℚ → (Fin nq → ℚ) → Fin nla_g → ℚ
  g_dot : ℚ → (Fin nq → ℚ) → (Fin nu → ℚ) → Fin nla_g → ℚ
  g_ddot : ℚ → (Fin nq → ℚ) → (Fin nu → ℚ) → (Fin nu → ℚ) → Fin nla_g → ℚ
  gamma : ℚ → (Fin nq → ℚ) → (Fin nu → ℚ) → Fin nla_gamma → ℚ
  gamma_dot : ℚ → (Fin nq → ℚ) → (Fin nu → ℚ) → (Fin nu → ℚ) → Fin nla_gamma → ℚ
  g_S : ℚ → (Fin nq → ℚ) → Fin nla_S → ℚ

variable {nq nu nla_g nla_gamma nla_N nla_F nla_S : ℕ}

/-- The KKT block matrix assembled by `consistent_initial_conditions`
(solver/_base.py, lines 37-48):
`bmat [[M0, -W_g0, -W_gamma0], [W_g0.T, 0, 0], [W_gamma0.T, 0, 0]]`,
all blocks evaluated at `(t0, q0)`. -/
def kktA (sys : CICSystem nq nu nla_g nla_gamma nla_N nla_F nla_S) :
    Matrix (TriIdx nu nla_g nla_gamma) (TriIdx nu nla_g nla_gamma) ℚ :=
  Matrix.of fun i j =>
    match i, j with
    | .inl i, .inl j => sys.M sys.t0 sys.q0 i j
    | .inl i, .inr (.inl jg) => -sys.W_g sys.t0 sys.q0 i jg
    | .inl i, .inr (.inr jc) => -sys.W_gamma sys.t0 sys.q0 i jc
    | .inr (.inl ig), .inl j => sys.W_g sys.t0 sys.q0 j ig
    | .inr (.inr ic), .inl j => sys.W_gamma sys.t0 sys.q0 j ic
    | .inr _, .inr _ => 0

/-- The KKT right-hand side assembled by `consistent_initial_conditions`
(solver/_base.py, lines 49-54):
`np.concatenate([h0 + W_N0 @ la_N0 + W_F0 @ la_F0, -zeta_g0, -zeta_gamma0])`. -/
def kktB (sys : CICSystem nq nu nla_g nla_gamma nla_N nla_F nla_S) :
    TriIdx nu nla_g nla_gamma → ℚ :=
  fun i =>
    match i with
    | .inl i =>
        sys.h sys.t0 sys.q0 sys.u0 i
          + (sys.W_N sys.t0 sys.q0).mulVec sys.la_N0 i
          + (sys.W_F sys.t0 sys.q0).mulVec sys.la_F0 i
    | .inr (.inl ig) => -sys.zeta_g sys.t0 sys.q0 sys.u0 ig
    | .inr (.inr ic) => -sys.zeta_gamma sys.t0 sys.q0 sys.u0 ic

/-- Value returned by `consistent_initial_conditions` (solver/_base.py,
line 105): the 7-tuple `(t0, q0, u0, q_dot0, u_dot0, la_g0, la_gamma0)`. -/
structure CICResult (nq nu nla_g nla_gamma : ℕ) where
  t0 : ℚ
  q0 : Fin nq → ℚ
  u0 : Fin nu → ℚ
  q_dot0 : Fin nq → ℚ
  u_dot0 : Fin nu → ℚ
  la_g0 : Fin nla_g → ℚ
  la_gamma0 : Fin nla_gamma → ℚ
  deriving DecidableEq

/-- The condition checked by `np.allclose(v, np.zeros(n), rtol, atol)`
with second argument zero: every component of `v` has absolute value at
most `atol` (the `rtol` term vanishes against the zero reference). -/
def allcloseZero {n : ℕ} (v : Fin n → ℚ) (atol : ℚ) : Prop :=
  ∀ i, |v i| ≤ atol

instance {n : ℕ} (v : Fin n → ℚ) (atol : ℚ) : Decidable (allcloseZero v atol) :=
  inferInstanceAs (Decidable (∀ i, _))

/-- Active normal contacts at the initial data: `I_N = g_N <= 0.0`
(solver/_base.py, line 14). -/
def cicActiveN (sys : CICSystem nq nu nla_g nla_gamma nla_N nla_F nla_S)
    (i : Fin nla_N) : Prop :=
  sys.g_N sys.t0 sys.q0 i ≤ 0

instance (sys : CICSystem nq nu nla_g nla_gamma nla_N nla_F nla_S) (i : Fin nla_N) :
    Decidable (cicActiveN sys i) :=
  inferInstanceAs (Decidable (_ ≤ _))

/-- `B_N = I_N * (g_N_dot <= 0)` (solver/_base.py, line 16): closed
contacts whose gap velocity is non-positive. -/
def cicBN (sys : CICSystem nq nu nla_g nla_gamma nla_N nla_F nla_S)
    (i : Fin nla_N) : Prop :=
  cicActiveN sys i ∧ sys.g_N_dot sys.t0 sys.q0 sys.u0 i ≤ 0

instance (sys : CICSystem nq nu nla_g nla_gamma nla_N nla_F nla_S) (i : Fin nla_N) :
    Decidable (cicBN sys i) :=
  inferInstanceAs (Decidable (_ ∧ _))

/-- The masked vector `I_N * g_N_dot` (boolean mask times values). -/
def cicMaskedGNdot (sys : CICSystem nq nu nla_g nla_gamma nla_N nla_F nla_S) :
    Fin nla_N → ℚ :=
  fun i => if cicActiveN sys i then sys.g_N_dot sys.t0 sys.q0 sys.u0 i else 0

/-- The masked vector `B_N * g_N_ddot` evaluated at the solved `u_dot0`. -/
def cicMaskedGNddot (sys : CICSystem nq nu nla_g nla_gamma nla_N nla_F nla_S)
    (u_dot0 : Fin nu → ℚ) : Fin nla_N → ℚ :=
  fun i => if cicBN sys i then sys.g_N_ddot sys.t0 sys.q0 sys.u0 u_dot0 i else 0

/-- Embedding of `consistent_initial_conditions` (solver/_base.py, lines
6-105).  `spsolve` stands for the external sparse solver
`scipy.sparse.linalg.spsolve`.  The function assembles the KKT system
`kktA`/`kktB`, solves it, slices the solution into
`u_dot0 = x[:nu]`, `la_g0 = x[nu:nu+nla_g]`,
`la_gamma0 = x[nu+nla_g:nu+nla_g+nla_gamma]` (here the three components
of the sum-typed index), and runs the feasibility `assert` statements of
the source; any assertion failure is `none`. -/
def consistentInitialConditions
    (sys : CICSystem nq nu nla_g nla_gamma nla_N nla_F nla_S)
    (spsolve : Matrix (TriIdx nu nla_g nla_gamma) (TriIdx nu nla_g nla_gamma) ℚ →
      (TriIdx nu nla_g nla_gamma → ℚ) → (TriIdx nu nla_g nla_gamma → ℚ))
    (rtol atol : ℚ) : Option (CICResult nq nu nla_g nla_gamma) :=
  let q_dot0 := sys.q_dot sys.t0 sys.q0 sys.u0
  let x := spsolve (kktA sys) (kktB sys)
  let u_dot0 : Fin nu → ℚ := fun i => x (.inl i)
  let la_g0 : Fin nla_g → ℚ := fun ig => x (.inr (.inl ig))
  let la_gamma0 : Fin nla_gamma → ℚ := fun ic => x (.inr (.inr ic))
  if (∀ i, 0 ≤ sys.g_N sys.t0 sys.q0 i)
      ∧ ((∀ i, 0 ≤ cicMaskedGNdot sys i) ∨ allcloseZero (cicMaskedGNdot sys) atol)
      ∧ ((∀ i, 0 ≤ sys.g_N_ddot sys.t0 sys.q0 sys.u0 u_dot0 i)
          ∨ allcloseZero (cicMaskedGNddot sys u_dot0) atol)
      ∧ allcloseZero (sys.g sys.t0 sys.q0) atol
      ∧ allcloseZero (sys.g_dot sys.t0 sys.q0 sys.u0) atol
      ∧ allcloseZero (sys.g_ddot sys.t0 sys.q0 sys.u0 u_dot0) atol
      ∧ allcloseZero (sys.gamma sys.t0 sys.q0 sys.u0) atol
      ∧ allcloseZero (sys.gamma_dot sys.t0 sys.q0 sys.u0 u_dot0) atol
      ∧ allcloseZero (sys.g_S sys.t0 sys.q0) atol then
    some ⟨sys.t0, sys.q0, sys.u0, q_dot0, u_dot0, la_g0, la_gamma0⟩
  else
    none

/-! ## LobattoIIIAB constructor arity mismatch (src/cardillo/solver/lobatto.py) -/

/-- A value of a Python tuple returned by a solver routine: either a
scalar or a 1-d array. -/
inductive PyVal where
  | scalar (x : ℚ)
  | vec (v : List ℚ)
  deriving DecidableEq

/-- The tuple returned by `consistent_initial_conditions`, as the ordered
list of its members (solver/_base.py, line 105):
`t0, q0, u0, q_dot0, u_dot0, la_g0, la_gamma0` - seven values. -/
def cicReturnTuple
    (sys : CICSystem nq nu nla_g nla_gamma nla_N nla_F nla_S)
    (spsolve : Matrix (TriIdx nu nla_g nla_gamma) (TriIdx nu nla_g nla_gamma) ℚ →
      (TriIdx nu nla_g nla_gamma → ℚ) → (TriIdx nu nla_g nla_gamma → ℚ))
    (rtol atol : ℚ) : Option (List PyVal) :=
  (consistentInitialConditions sys spsolve rtol atol).map fun out =>
    [.scalar out.t0, .vec (List.ofFn out.q0), .vec (List.ofFn out.u0),
     .vec (List.ofFn out.q_dot0), .vec (List.ofFn out.u_dot0),
     .vec (List.ofFn out.la_g0), .vec (List.ofFn out.la_gamma0)]

/-- Python tuple unpacking into nine names, as performed by
`LobattoIIIAB.__init__` (solver/lobatto.py, lines 52-63):
`tn, qn, un, q_dotn, u_dotn, la_gn, la_gamman, la_Nn, la_Fn = ...`.
Succeeds exactly on a nine-element tuple; any other length raises a
`ValueError` (modelled as `none`). -/
def unpack9 {α : Type} (l : List α) :
    Option (α × α × α × α × α × α × α × α × α) :=
  match l with
  | [a, b, c, d, e, f, g, h, i] => some (a, b, c, d, e, f, g, h, i)
  | _ => none

/-- The initial-condition phase of `LobattoIIIAB.__init__`
(solver/lobatto.py, lines 52-63): call `consistent_initial_conditions`
and destructure its result into nine names.  A failed assertion inside
`consistent_initial_conditions` propagates as `"assertion"`; a tuple of
the wrong length raises the unpacking `ValueError`, modelled as
`"unpack"`. -/
def lobattoIIIABInit
    (sys : CICSystem nq nu nla_g nla_gamma nla_N nla_F nla_S)
    (spsolve : Matrix (TriIdx nu nla_g nla_gamma) (TriIdx nu nla_g nla_gamma) ℚ →
      (TriIdx nu nla_g nla_gamma → ℚ) → (TriIdx nu nla_g nla_gamma → ℚ))
    (rtol atol : ℚ) :
    Except String (PyVal × PyVal × PyVal × PyVal × PyVal × PyVal × PyVal × PyVal × PyVal) :=
  match cicReturnTuple sys spsolve rtol atol with
  | none => .error "assertion"
  | some tup =>
    match unpack9 tup with
    | none => .error "unpack"
    | some names => .ok names

/-! ## Radau IIA DAE-index-aware error scaling (src/cardillo/solver/radau.py) -/

/-- DAE index convention selected for a `RadauIIa` run
(solver/radau.py, line 731): `assert dae_index in [2, 3, "GGL"]`. -/
inductive DaeIndex where
  | two
  | three
  | ggl
  deriving DecidableEq

/-- Index type of the `RadauIIa` state vector
`y = [q; u; la_g; la_gamma; mu_S]` (plus a second copy of the `la_g`
block for the GGL stabilisation, solver/radau.py, lines 759-761). -/
abbrev RadauIdx (nq nu nla_g nla_gamma nla_S nextra : ℕ) :=
  (Fin nq ⊕ Fin nu) ⊕ (Fin nla_g ⊕ (Fin nla_gamma ⊕ (Fin nla_S ⊕ Fin nextra)))

/-- The DAE index array constructed by `RadauIIa.__init__`
(solver/radau.py, lines 772-799): zeros on the differential `q, u`
block; on the multiplier blocks, index 2 for `la_g` and `la_gamma` and 3
for `la_S` when `dae_index == 2`; index 3 for `la_g`, 2 for `la_gamma`
and 3 for `la_S` when `dae_index == 3`; and additionally index 3 on the
extra `mu_g` block in the GGL case. -/
def radauIndexArray (dae : DaeIndex) (nq nu nla_g nla_gamma nla_S nextra : ℕ) :
    RadauIdx nq nu nla_g nla_gamma nla_S nextra → ℤ :=
  fun i =>
    match i with
    | .inl _ => 0
    | .inr (.inl _) => match dae with
      | .two => 2
      | .three => 3
      | .ggl => 2
    | .inr (.inr (.inl _)) => 2
    | .inr (.inr (.inr (.inl _))) => 3
    | .inr (.inr (.inr (.inr _))) => 3

/-- `Radau._validate_index_array` (solver/radau.py, lines 410-418):
`index_array = np.maximum(0, index_array - 1)`. -/
def validateIndexArray {ι : Type} (index_array : ι → ℤ) : ι → ℤ :=
  fun i => max 0 (index_array i - 1)

/-- The error scaling applied by `Radau._step_impl` before the error norm
is computed (solver/radau.py, line 600): `error *= h ** self.index_array`,
where `self.index_array` is the validated index array stored by the
constructor. -/
def radauScaledError {ι : Type} (h : ℚ) (err : ι → ℚ) (index_array : ι → ℤ) :
    ι → ℚ :=
  fun i => err i * h ^ (index_array i).toNat

/-- The error scaling as the claim words it: each component is multiplied
by the step size raised to a power equal to that component's DAE index
itself, the index being read off the constructed (raw) index array of
`RadauIIa.__init__`; differential components carry index 0 and are
unscaled.  Stated for comparison with the code path
`radauScaledError h err (validateIndexArray (radauIndexArray ...))`. -/
def claimScaledError (dae : DaeIndex) (nq nu nla_g nla_gamma nla_S nextra : ℕ)
    (h : ℚ) (err : RadauIdx nq nu nla_g nla_gamma nla_S nextra → ℚ) :
    RadauIdx nq nu nla_g nla_gamma nla_S nextra → ℚ :=
  fun i => err i * h ^ (radauIndexArray dae nq nu nla_g nla_gamma nla_S nextra i).toNat

/-! ### Concrete instances used by the witnesses (rational part) -/

/-- A minimal concrete system: one velocity degree of freedom, no
constraints of any kind, vanishing forces. -/
def cicSys0 : CICSystem 0 1 0 0 0 0 0 where
  t0 := 0
  q0 := fun _ => 0
  u0 := fun _ => 0
  g_N := fun _ _ => Fin.elim0
  g_N_dot := fun _ _ _ => Fin.elim0
  g_N_ddot := fun _ _ _ _ => Fin.elim0
  q_dot := fun _ _ _ => Fin.elim0
  M := fun _ _ => Matrix.of fun _ _ => 1
  h := fun _ _ _ _ => 0
  W_g := fun _ _ => Matrix.of fun _ => Fin.elim0
  W_gamma := fun _ _ => Matrix.of fun _ => Fin.elim0
  zeta_g := fun _ _ _ => Fin.elim0
  zeta_gamma := fun _ _ _ => Fin.elim0
  W_N := fun _ _ => Matrix.of fun _ => Fin.elim0
  W_F := fun _ _ => Matrix.of fun _ => Fin.elim0
  la_N0 := Fin.elim0
  la_F0 := Fin.elim0
  g := fun _ _ => Fin.elim0
  g_dot := fun _ _ _ => Fin.elim0
  g_ddot := fun _ _ _ _ => Fin.elim0
  gamma := fun _ _ _ => Fin.elim0
  gamma_dot := fun _ _ _ _ => Fin.elim0
  g_S := fun _ _ => Fin.elim0

/-- A linear solver that is exact for the KKT matrix of `cicSys0`
(which is the identity): it returns the right-hand side. -/
def spsolve0 :
    Matrix (TriIdx 1 0 0) (TriIdx 1 0 0) ℚ → (TriIdx 1 0 0 → ℚ) →
    (TriIdx 1 0 0 → ℚ) :=
  fun _ b => b

/-- The value `consistent_initial_conditions` returns on `cicSys0`. -/
def cicOut0 : CICResult 0 1 0 0 where
  t0 := 0
  q0 := fun _ => 0
  u0 := fun _ => 0
  q_dot0 := Fin.elim0
  u_dot0 := fun _ => 0
  la_g0 := Fin.elim0
  la_gamma0 := Fin.elim0

/-! ## Moreau time stepping (src/cardillo/solver/moreau.py)

Scalars are real numbers here: the friction update applies a projection
onto a Euclidean disk, whose values are irrational in general. -/

noncomputable section

open scoped Classical

/-- Modelled from the spec: `prox_Rn0` from the missing module
`cardillo.math.prox` is "the proximal-point operator for normal contact
(projection onto the non-negative cone)", applied componentwise. -/
def prox_Rn0 (x : ℝ) : ℝ := max x 0

/-- Modelled from the spec: `prox_circle` from the missing module
`cardillo.math.prox` is the "projection onto a disk of radius
mu * normal-impulse"; here the Euclidean projection of the block vector
`x` onto the closed disk of radius `r` about the origin. -/
def prox_circle (x : List ℝ) (r : ℝ) : List ℝ :=
  let nx := Real.sqrt ((x.map fun a => a ^ 2).sum)
  if nx ≤ r then x else x.map fun a => r / nx * a

/-- The model callback contract consumed by `Moreau`
(solver/moreau.py): kinematic map, mass matrix, force vector, bilateral
constraint operators `W_g, W_gamma, g_dot_u, chi_g, gamma_u, chi_gamma`,
contact operators `W_N, W_T, g_N, xi_N, xi_T`, the contact parameters
`prox_r_N, prox_r_T, mu`, the normal-to-tangential connectivity table,
and the step callback.  `solveLin` stands for the external sparse solver
`scipy.sparse.linalg.spsolve`; `dt`, `fix_point_tol` and
`fix_point_max_iter` are the constructor parameters of the same names. -/
structure MoreauModel (nq nu nla_g nla_gamma nla_N nla_T : ℕ) where
  dt : ℝ
  fix_point_tol : ℝ
  fix_point_max_iter : ℕ
  q_dot : ℝ → (Fin nq → ℝ) → (Fin nu → ℝ) → Fin nq → ℝ
  M : ℝ → (Fin nq → ℝ) → Matrix (Fin nu) (Fin nu) ℝ
  h : ℝ → (Fin nq → ℝ) → (Fin nu → ℝ) → Fin nu → ℝ
  W_g : ℝ → (Fin nq → ℝ) → Matrix (Fin nu) (Fin nla_g) ℝ
  W_gamma : ℝ → (Fin nq → ℝ) → Matrix (Fin nu) (Fin nla_gamma) ℝ
  W_N : ℝ → (Fin nq → ℝ) → Matrix (Fin nu) (Fin nla_N) ℝ
  W_T : ℝ → (Fin nq → ℝ) → Matrix (Fin nu) (Fin nla_T) ℝ
  g_dot_u : ℝ → (Fin nq → ℝ) → Matrix (Fin nla_g) (Fin nu) ℝ
  chi_g : ℝ → (Fin nq → ℝ) → Fin nla_g → ℝ
  gamma_u : ℝ → (Fin nq → ℝ) → Matrix (Fin nla_gamma) (Fin nu) ℝ
  chi_gamma : ℝ → (Fin nq → ℝ) → Fin nla_gamma → ℝ
  g_N : ℝ → (Fin nq → ℝ) → Fin nla_N → ℝ
  xi_N : ℝ → (Fin nq → ℝ) → (Fin nu → ℝ) → (Fin nu → ℝ) → Fin nla_N → ℝ
  xi_T : ℝ → (Fin nq → ℝ) → (Fin nu → ℝ) → (Fin nu → ℝ) → Fin nla_T → ℝ
  NT_connectivity : Fin nla_N → List (Fin nla_T)
  prox_r_N : Fin nla_N → ℝ
  prox_r_T : Fin nla_N → ℝ
  mu : Fin nla_N → ℝ
  solveLin : Matrix (TriIdx nu nla_g nla_gamma) (TriIdx nu nla_g nla_gamma) ℝ →
    (TriIdx nu nla_g nla_gamma → ℝ) → (TriIdx nu nla_g nla_gamma → ℝ)
  step_callback : ℝ → (Fin nq → ℝ) → (Fin nu → ℝ) → (Fin nq → ℝ) × (Fin nu → ℝ)

/-- State carried across Moreau steps: `tk, qk, uk, la_gk, la_gammak,
P_Nk, P_Tk` (solver/moreau.py, lines 38-44 and 283). -/
structure MoreauState (nq nu nla_g nla_gamma nla_N nla_T : ℕ) where
  tk : ℝ
  qk : Fin nq → ℝ
  uk : Fin nu → ℝ
  la_gk : Fin nla_g → ℝ
  la_gammak : Fin nla_gamma → ℝ
  P_Nk : Fin nla_N → ℝ
  P_Tk : Fin nla_T → ℝ

/-- Everything returned by `Moreau.__step_fixed_point`
(solver/moreau.py, line 147):
`(converged, j, error), tk1, qk1, uk1, la_gk1, la_gammak1, P_Nk1, P_Tk1`. -/
structure MoreauStepResult (nq nu nla_g nla_gamma nla_N nla_T : ℕ) where
  converged : Bool
  iters : ℕ
  err : ℝ
  tk1 : ℝ
  qk1 : Fin nq → ℝ
  uk1 : Fin nu → ℝ
  la_gk1 : Fin nla_g → ℝ
  la_gammak1 : Fin nla_gamma → ℝ
  P_Nk1 : Fin nla_N → ℝ
  P_Tk1 : Fin nla_T → ℝ

variable {nla_T : ℕ}

/-- The explicit position prediction
`qk1 = qk + dt * q_dot(tk, qk, uk)` (solver/moreau.py, line 61). -/
def moreauQPred (m : MoreauModel nq nu nla_g nla_gamma nla_N nla_T)
    (s : MoreauState nq nu nla_g nla_gamma nla_N nla_T) : Fin nq → ℝ :=
  fun i => s.qk i + m.dt * m.q_dot s.tk s.qk s.uk i

/-- The active normal contact set `I_N = (g_N <= 0)` determined at the
predicted position (solver/moreau.py, lines 75-76). -/
def moreauActiveN (m : MoreauModel nq nu nla_g nla_gamma nla_N nla_T)
    (s : MoreauState nq nu nla_g nla_gamma nla_N nla_T) (i : Fin nla_N) : Prop :=
  m.g_N (s.tk + m.dt) (moreauQPred m s) i ≤ 0

/-- A tangential component is active when some active normal contact
lists it in the connectivity table, mirroring the construction of `I_T`
(solver/moreau.py, lines 77-80). -/
def moreauActiveT (m : MoreauModel nq nu nla_g nla_gamma nla_N nla_T)
    (s : MoreauState nq nu nla_g nla_gamma nla_N nla_T) (j : Fin nla_T) : Prop :=
  ∃ i, moreauActiveN m s i ∧ j ∈ m.NT_connectivity i

/-- Restriction of a vector to an index set, as in the products
`W_N[:, I_N] @ P_N[I_N]`: components outside the set contribute zero. -/
def maskVec {n : ℕ} (act : Fin n → Prop) (v : Fin n → ℝ) : Fin n → ℝ :=
  fun i => if act i then v i else 0

/-- The block matrix of the velocity/bilateral-multiplier solve
(solver/moreau.py, lines 86-88):
`bmat [[M, -dt*W_g, -dt*W_gamma], [g_dot_u, 0, 0], [gamma_u, 0, 0]]`,
assembled at `(tk1, qk1)`. -/
def moreauA (m : MoreauModel nq nu nla_g nla_gamma nla_N nla_T)
    (tk1 : ℝ) (qk1 : Fin nq → ℝ) :
    Matrix (TriIdx nu nla_g nla_gamma) (TriIdx nu nla_g nla_gamma) ℝ :=
  Matrix.of fun i j =>
    match i, j with
    | .inl i, .inl j => m.M tk1 qk1 i j
    | .inl i, .inr (.inl jg) => -(m.dt * m.W_g tk1 qk1 i jg)
    | .inl i, .inr (.inr jc) => -(m.dt * m.W_gamma tk1 qk1 i jc)
    | .inr (.inl ig), .inl j => m.g_dot_u tk1 qk1 ig j
    | .inr (.inr ic), .inl j => m.gamma_u tk1 qk1 ic j
    | .inr _, .inr _ => 0

/-- The right-hand side of the velocity/bilateral-multiplier solve
(solver/moreau.py, lines 90-92 and 138-140):
`np.concatenate((M @ uk + dt*h + W_N[:, I_N] @ P_N[I_N] + W_T[:, I_T] @ P_T[I_T],
-chi_g, -chi_gamma))`, with the contact contributions supplied already
restricted (masked) to the active sets. -/
def moreauRhs (m : MoreauModel nq nu nla_g nla_gamma nla_N nla_T)
    (tk1 : ℝ) (qk1 : Fin nq → ℝ) (uk : Fin nu → ℝ)
    (PNmasked : Fin nla_N → ℝ) (PTmasked : Fin nla_T → ℝ) :
    TriIdx nu nla_g nla_gamma → ℝ :=
  fun i =>
    match i with
    | .inl i =>
        (m.M tk1 qk1).mulVec uk i + m.dt * m.h tk1 qk1 uk i
          + (m.W_N tk1 qk1).mulVec PNmasked i + (m.W_T tk1 qk1).mulVec PTmasked i
    | .inr (.inl ig) => -m.chi_g tk1 qk1 ig
    | .inr (.inr ic) => -m.chi_gamma tk1 qk1 ic

/-- The right-hand side of the first solve of a step, fed with the
previous accepted step's impulses `P_Nk, P_Tk` restricted to the current
active sets (solver/moreau.py, lines 90-92). -/
def moreauFirstRhs (m : MoreauModel nq nu nla_g nla_gamma nla_N nla_T)
    (s : MoreauState nq nu nla_g nla_gamma nla_N nla_T) :
    TriIdx nu nla_g nla_gamma → ℝ :=
  moreauRhs m (s.tk + m.dt) (moreauQPred m s) s.uk
    (maskVec (moreauActiveN m s) s.P_Nk) (maskVec (moreauActiveT m s) s.P_Tk)

/-- The solution of the first linear solve of a step
(solver/moreau.py, line 94). -/
def moreauFirstSolve (m : MoreauModel nq nu nla_g nla_gamma nla_N nla_T)
    (s : MoreauState nq nu nla_g nla_gamma nla_N nla_T) :
    TriIdx nu nla_g nla_gamma → ℝ :=
  m.solveLin (moreauA m (s.tk + m.dt) (moreauQPred m s)) (moreauFirstRhs m s)

/-- The normal-impulse prox update of one fixed-point iteration
(solver/moreau.py, line 114):
`P_Nk1_i1[I_N] = prox_Rn0(P_Nk1_i[I_N] - prox_r_N[I_N] * xi_N(...)[I_N])`;
components outside `I_N` keep the value copied from the iterate. -/
def moreauUpdatePN (m : MoreauModel nq nu nla_g nla_gamma nla_N nla_T)
    (tk1 : ℝ) (qk1 : Fin nq → ℝ) (uk uk1 : Fin nu → ℝ)
    (act : Fin nla_N → Prop) (PN : Fin nla_N → ℝ) : Fin nla_N → ℝ :=
  fun i =>
    if act i then prox_Rn0 (PN i - m.prox_r_N i * m.xi_N tk1 qk1 uk uk1 i)
    else PN i

/-- Write the values `vals` into the positions `l` of the vector `old`
(the numpy fancy assignment `v[l] = vals`); a position takes the value
paired with its first occurrence in `l`. -/
def scatterBlock {n : ℕ} (old : Fin n → ℝ) (l : List (Fin n)) (vals : List ℝ) :
    Fin n → ℝ :=
  fun j => (l.zip vals).foldr (fun p acc => if p.1 = j then p.2 else acc) (old j)

/-- The updated friction block of contact `iN`:
`prox_circle(P_Tk1_i[i_T] - prox_r_T[i_N] * xi_T[i_T], mu[i_N] * P_Nk1_i1[i_N])`
(solver/moreau.py, line 119), reading the previous friction iterate `PT`
and the freshly updated normal impulse `PNnew`. -/
def moreauPTVals (m : MoreauModel nq nu nla_g nla_gamma nla_N nla_T)
    (tk1 : ℝ) (qk1 : Fin nq → ℝ) (uk uk1 : Fin nu → ℝ)
    (PT : Fin nla_T → ℝ) (PNnew : Fin nla_N → ℝ) (iN : Fin nla_N) : List ℝ :=
  prox_circle
    ((m.NT_connectivity iN).map fun j =>
      PT j - m.prox_r_T iN * m.xi_T tk1 qk1 uk uk1 j)
    (m.mu iN * PNnew iN)

/-- One pass of the friction update loop body
(solver/moreau.py, lines 117-119): if normal contact `iN` is active and
has associated tangential components, write its projected friction block
into the accumulating vector. -/
def moreauPTStep (m : MoreauModel nq nu nla_g nla_gamma nla_N nla_T)
    (tk1 : ℝ) (qk1 : Fin nq → ℝ) (uk uk1 : Fin nu → ℝ)
    (act : Fin nla_N → Prop) (PT : Fin nla_T → ℝ) (PNnew : Fin nla_N → ℝ)
    (acc : Fin nla_T → ℝ) (iN : Fin nla_N) : Fin nla_T → ℝ :=
  if act iN ∧ m.NT_connectivity iN ≠ [] then
    scatterBlock acc (m.NT_connectivity iN)
      (moreauPTVals m tk1 qk1 uk uk1 PT PNnew iN)
  else acc

/-- The friction-impulse prox update of one fixed-point iteration
(solver/moreau.py, lines 116-119): the loop over all normal contacts of
the per-contact update `moreauPTStep`; all reads are from the previous
iterate `PT`. -/
def moreauUpdatePT (m : MoreauModel nq nu nla_g nla_gamma nla_N nla_T)
    (tk1 : ℝ) (qk1 : Fin nq → ℝ) (uk uk1 : Fin nu → ℝ)
    (act : Fin nla_N → Prop) (PT : Fin nla_T → ℝ) (PNnew : Fin nla_N → ℝ) :
    Fin nla_T → ℝ :=
  (List.finRange nla_N).foldl (moreauPTStep m tk1 qk1 uk uk1 act PT PNnew) PT

/-- `np.max(np.abs(R))`, the default `error_function` of `Moreau`
(solver/moreau.py, line 12), on the components of a residual list. -/
def maxAbsList (l : List ℝ) : ℝ :=
  (l.map fun a => |a|).foldl max 0

/-- The impulse-change residual
`R = np.concatenate((P_Nk1_i1[I_N] - P_Nk1_i[I_N], P_Tk1_i1[I_T] - P_Tk1_i[I_T]))`
(solver/moreau.py, line 123). -/
def moreauResidual (m : MoreauModel nq nu nla_g nla_gamma nla_N nla_T)
    (act : Fin nla_N → Prop)
    (PN PN1 : Fin nla_N → ℝ) (PT PT1 : Fin nla_T → ℝ) : List ℝ :=
  ((List.finRange nla_N).filter fun i => decide (act i)).map (fun i => PN1 i - PN i)
    ++ ((List.finRange nla_N).flatMap fun i =>
        if act i then m.NT_connectivity i else []).map (fun j => PT1 j - PT j)

/-- The fixed-point/prox iteration of `Moreau.__step_fixed_point`
(solver/moreau.py, lines 105-146).  Each round applies the normal and
friction prox updates, measures the impulse change, and either stops
(returning the impulses restricted to the active sets, zeros elsewhere,
lines 99-100 and 127-128) or re-solves the linear system with the new
impulses and continues.  `fuel` counts the remaining loop rounds of
`range(fix_point_max_iter)`; exhausting it leaves `converged = False`. -/
def moreauFixPoint (m : MoreauModel nq nu nla_g nla_gamma nla_N nla_T)
    (tk1 : ℝ) (qk1 : Fin nq → ℝ) (uk : Fin nu → ℝ)
    (act : Fin nla_N → Prop) (actT : Fin nla_T → Prop)
    (A : Matrix (TriIdx nu nla_g nla_gamma) (TriIdx nu nla_g nla_gamma) ℝ) :
    ℕ → ℕ → ℝ → (Fin nu → ℝ) → (Fin nla_g → ℝ) → (Fin nla_gamma → ℝ) →
    (Fin nla_N → ℝ) → (Fin nla_T → ℝ) →
    MoreauStepResult nq nu nla_g nla_gamma nla_N nla_T
  | 0, j, errPrev, uk1, la_g1, la_gamma1, _, _ =>
      ⟨false, j, errPrev, tk1, qk1, uk1, la_g1, la_gamma1, fun _ => 0, fun _ => 0⟩
  | fuel + 1, j, _, uk1, la_g1, la_gamma1, PN, PT =>
      let PN1 := moreauUpdatePN m tk1 qk1 uk uk1 act PN
      let PT1 := moreauUpdatePT m tk1 qk1 uk uk1 act PT PN1
      let err := maxAbsList (moreauResidual m act PN PN1 PT PT1)
      if err < m.fix_point_tol then
        ⟨true, j, err, tk1, qk1, uk1, la_g1, la_gamma1,
          maskVec act PN1, maskVec actT PT1⟩
      else
        let x := m.solveLin A (moreauRhs m tk1 qk1 uk (maskVec act PN1) (maskVec actT PT1))
        moreauFixPoint m tk1 qk1 uk act actT A fuel (j + 1) err
          (fun i => x (.inl i)) (fun ig => x (.inr (.inl ig)))
          (fun ic => x (.inr (.inr ic))) PN1 PT1

/-- `Moreau.__step_fixed_point` (solver/moreau.py, lines 56-147):
predict the position explicitly, determine the active contact sets,
solve the linear system for the new velocity and bilateral multipliers
with the previous step's impulses (restricted to the active sets) on the
right-hand side, and, if any contact is active, run the fixed-point prox
iteration; with no active contact the step is accepted immediately with
zero contact impulses. -/
def moreauStepFixedPoint (m : MoreauModel nq nu nla_g nla_gamma nla_N nla_T)
    (s : MoreauState nq nu nla_g nla_gamma nla_N nla_T) :
    MoreauStepResult nq nu nla_g nla_gamma nla_N nla_T :=
  let tk1 := s.tk + m.dt
  let qk1 := moreauQPred m s
  let x := moreauFirstSolve m s
  let uk1 : Fin nu → ℝ := fun i => x (.inl i)
  let la_g1 : Fin nla_g → ℝ := fun ig => x (.inr (.inl ig))
  let la_gamma1 : Fin nla_gamma → ℝ := fun ic => x (.inr (.inr ic))
  if ∃ i, moreauActiveN m s i then
    moreauFixPoint m tk1 qk1 s.uk (moreauActiveN m s) (moreauActiveT m s)
      (moreauA m tk1 qk1) m.fix_point_max_iter 0 0
      uk1 la_g1 la_gamma1 s.P_Nk s.P_Tk
  else
    ⟨true, 0, 0, tk1, qk1, uk1, la_g1, la_gamma1, fun _ => 0, fun _ => 0⟩

/-- One entry of the trajectory record produced by `Moreau.solve`
(solver/moreau.py, lines 259-286). -/
structure MoreauRec (nq nu nla_g nla_gamma nla_N nla_T : ℕ) where
  q : Fin nq → ℝ
  u : Fin nu → ℝ
  la_g : Fin nla_g → ℝ
  la_gamma : Fin nla_gamma → ℝ
  P_N : Fin nla_N → ℝ
  P_T : Fin nla_T → ℝ

/-- The trajectory entry appended for an accepted step: position and
velocity pass through the model's `step_callback` first
(solver/moreau.py, lines 273-280). -/
def moreauRecOf (m : MoreauModel nq nu nla_g nla_gamma nla_N nla_T)
    (r : MoreauStepResult nq nu nla_g nla_gamma nla_N nla_T) :
    MoreauRec nq nu nla_g nla_gamma nla_N nla_T :=
  ⟨(m.step_callback r.tk1 r.qk1 r.uk1).1, (m.step_callback r.tk1 r.qk1 r.uk1).2,
    r.la_gk1, r.la_gammak1, r.P_Nk1, r.P_Tk1⟩

/-- The state carried into the next step after an accepted step
(solver/moreau.py, line 283); the callback-modified position and
velocity are the ones carried forward. -/
def moreauNextState (m : MoreauModel nq nu nla_g nla_gamma nla_N nla_T)
    (r : MoreauStepResult nq nu nla_g nla_gamma nla_N nla_T) :
    MoreauState nq nu nla_g nla_gamma nla_N nla_T :=
  ⟨r.tk1, (m.step_callback r.tk1 r.qk1 r.uk1).1,
    (m.step_callback r.tk1 r.qk1 r.uk1).2,
    r.la_gk1, r.la_gammak1, r.P_Nk1, r.P_Tk1⟩

/-- The stepping loop of `Moreau.solve` (solver/moreau.py, lines
266-283), run for `n` remaining steps: a non-converged inner iteration
raises `RuntimeError` (modelled as `Except.error`), which terminates the
run with no recovery; otherwise the step is accepted, recorded and the
state advanced. -/
def moreauSolveAux (m : MoreauModel nq nu nla_g nla_gamma nla_N nla_T) :
    ℕ → MoreauState nq nu nla_g nla_gamma nla_N nla_T →
    Except Unit (List (MoreauRec nq nu nla_g nla_gamma nla_N nla_T))
  | 0, _ => .ok []
  | n + 1, s =>
      let r := moreauStepFixedPoint m s
      if r.converged then
        match moreauSolveAux m n (moreauNextState m r) with
        | .ok rest => .ok (moreauRecOf m r :: rest)
        | .error e => .error e
      else
        .error ()

/-- `Moreau.solve` (solver/moreau.py, lines 256-286) over `n` time
steps: the record starts with the initial state and appends one entry
per accepted step. -/
def moreauSolve (m : MoreauModel nq nu nla_g nla_gamma nla_N nla_T) (n : ℕ)
    (s : MoreauState nq nu nla_g nla_gamma nla_N nla_T) :
    Except Unit (List (MoreauRec nq nu nla_g nla_gamma nla_N nla_T)) :=
  match moreauSolveAux m n s with
  | .ok rest => .ok (⟨s.qk, s.uk, s.la_gk, s.la_gammak, s.P_Nk, s.P_Tk⟩ :: rest)
  | .error e => .error e

/-- Every inner fixed-point iteration along an `n`-step run converges:
the run-level convergence predicate mirrored by `moreauSolveAux`. -/
def moreauConvergedRun (m : MoreauModel nq nu nla_g nla_gamma nla_N nla_T) :
    ℕ → MoreauState nq nu nla_g nla_gamma nla_N nla_T → Prop
  | 0, _ => True
  | n + 1, s =>
      (moreauStepFixedPoint m s).converged = true
        ∧ moreauConvergedRun m n (moreauNextState m (moreauStepFixedPoint m s))

/-! ## Cosserat rod (src/cardillo/rods/_base.py)

Nodal layout of the generalized coordinates: per centerline node a block
of 3 Cartesian components, per orientation node a block of 4 quaternion
components (after all centerline blocks); per velocity node 3
translational, then 3 angular components.  The node-major flat layout of
the mesh is embedded as a sum-of-products index type. -/

/-- Index of a rod generalized-coordinate component: centerline node
component (first `nq_r` flat coordinates) or nodal quaternion component
(the following `nq_p` flat coordinates). -/
abbrev RodQIdx (N : ℕ) := (Fin N × Fin 3) ⊕ (Fin N × Fin 4)

/-- Index of a rod generalized-velocity component: centerline velocity
component or body-frame angular velocity component. -/
abbrev RodUIdx (N : ℕ) := (Fin N × Fin 3) ⊕ (Fin N × Fin 3)

variable {N : ℕ}

/-- The nodal quaternion block `q[nodalDOF_p[node]]`. -/
def pBlock (q : RodQIdx N → ℝ) (node : Fin N) : Fin 4 → ℝ :=
  fun c => q (.inr (node, c))

/-- The nodal angular-velocity block `u[nodalDOF_p_u[node]]`. -/
def omegaBlock (u : RodUIdx N → ℝ) (node : Fin N) : Fin 3 → ℝ :=
  fun c => u (.inr (node, c))

/-- Modelled from the spec: the Euclidean norm `norm` of the missing
module `cardillo.math.algebra` ("divides each 4-component block by its
Euclidean norm"). -/
def eucNorm {n : ℕ} (v : Fin n → ℝ) : ℝ :=
  Real.sqrt (∑ i, v i ^ 2)

/-- Modelled from the spec: the quaternion kinematic map relating the
body-frame angular velocity to the quaternion rate ("Relationship to
q-dot is nonlinear (quaternion kinematic map), not the identity"): for
`p = (p0, pv)`, `p_dot = T(p) @ omega` with
`T(p) = 1/2 * [[-pv^T], [p0*I + skew(pv)]]`. -/
def quatKinMatrix (p : Fin 4 → ℝ) : Matrix (Fin 4) (Fin 3) ℝ :=
  (1 / 2 : ℝ) •
    !![-(p 1), -(p 2), -(p 3);
         p 0 , -(p 3),   p 2 ;
         p 3 ,   p 0 , -(p 1);
       -(p 2),   p 1 ,   p 0 ]

/-- Modelled from the spec: `T_SO3_inv_quat` of the missing module
`cardillo.math.rotations`, the quaternion kinematic map with an optional
normalization of its quaternion argument. -/
def T_SO3_inv_quat (p : Fin 4 → ℝ) (normalizeArg : Bool) :
    Matrix (Fin 4) (Fin 3) ℝ :=
  if normalizeArg then quatKinMatrix (fun c => p c / eucNorm p)
  else quatKinMatrix p

/-- `CosseratRod.q_dot` (rods/_base.py, lines 474-491): centerline part
is the identity on the translational velocities; each nodal quaternion
rate is `T_SO3_inv_quat(p, normalize=False) @ K_omega_IK` with the raw
(possibly non-unit) nodal quaternion `p`. -/
def rod_q_dot (t : ℝ) (q : RodQIdx N → ℝ) (u : RodUIdx N → ℝ) :
    RodQIdx N → ℝ :=
  fun i =>
    match i with
    | .inl (node, c) => u (.inl (node, c))
    | .inr (node, c) =>
        (T_SO3_inv_quat (pBlock q node) false).mulVec (omegaBlock u node) c

/-- `CosseratRod.q_dot_u` (rods/_base.py, lines 493-508): the kinematic
matrix with identity blocks on the centerline and
`T_SO3_inv_quat(p / norm(p), normalize=False)` on each nodal quaternion
block - the nodal quaternion is normalized before the matrix is built. -/
def rod_q_dot_u (t : ℝ) (q : RodQIdx N → ℝ) :
    Matrix (RodQIdx N) (RodUIdx N) ℝ :=
  Matrix.of fun i j =>
    match i, j with
    | .inl (n, c), .inl (n', c') => if n = n' ∧ c = c' then 1 else 0
    | .inr (n, c), .inr (n', c') =>
        if n = n' then
          T_SO3_inv_quat (fun k => pBlock q n k / eucNorm (pBlock q n)) false c c'
        else 0
    | _, _ => 0

/-- `CosseratRod.step_callback` (rods/_base.py, lines 528-532): each
nodal quaternion block of `q` is divided by its Euclidean norm, all
other components of `q` and the whole of `u` are returned unchanged. -/
def rodStepCallback (t : ℝ) (q : RodQIdx N → ℝ) (u : RodUIdx N → ℝ) :
    (RodQIdx N → ℝ) × (RodUIdx N → ℝ) :=
  (fun i =>
    match i with
    | .inl rc => q (.inl rc)
    | .inr (node, c) => q (.inr (node, c)) / eucNorm (pBlock q node),
   u)

/-- Output of the abstract evaluation `CosseratRod._eval(qe, xi)`
(rods/_base.py, line 418): `(r_OP, A_IK, K_Gamma_bar, K_Kappa_bar)`. -/
structure RodEvalOut where
  r_OP : Fin 3 → ℝ
  A_IK : Matrix (Fin 3) (Fin 3) ℝ
  K_Gamma_bar : Fin 3 → ℝ
  K_Kappa_bar : Fin 3 → ℝ

/-- The data of a discretized Cosserat rod needed by the strain
evaluation routines: the reference coordinates `Q`, the element DOF map
`elDOF`, the element lookup `element_number` from the knot vector, the
quadrature points `qp`, and the concrete `_eval` implementation supplied
by the subclass. -/
structure RodModel (nel nqe nquad : ℕ) where
  nqr : ℕ
  Q : Fin nqr → ℝ
  elDOF : Fin nel → Fin nqe → Fin nqr
  element_number : ℝ → Fin nel
  qp : Fin nel → Fin nquad → ℝ
  eval : (Fin nqe → ℝ) → ℝ → RodEvalOut

variable {nel nqe nquad : ℕ}

/-- The element coordinates `q[self.elDOF[el]]`. -/
def rodQe (rod : RodModel nel nqe nquad) (q : Fin rod.nqr → ℝ) (el : Fin nel) :
    Fin nqe → ℝ :=
  fun k => q (rod.elDOF el k)

/-- The reference Jacobian `J = norm(K_Gamma_bar)` cached by
`CosseratRod.set_reference_strains` (rods/_base.py, lines 237-271) at
element `el`, quadrature point `i`, from `_eval(Q[elDOF[el]], qp[el, i])`. -/
def rodRefJ (rod : RodModel nel nqe nquad) (el : Fin nel) (i : Fin nquad) : ℝ :=
  eucNorm (rod.eval (rodQe rod rod.Q el) (rod.qp el i)).K_Gamma_bar

/-- The cached reference axial/shear strain `K_Gamma0 = K_Gamma_bar / J`
of `CosseratRod.set_reference_strains` (rods/_base.py, line 263). -/
def rodKGamma0 (rod : RodModel nel nqe nquad) (el : Fin nel) (i : Fin nquad) :
    Fin 3 → ℝ :=
  fun c => (rod.eval (rodQe rod rod.Q el) (rod.qp el i)).K_Gamma_bar c / rodRefJ rod el i

/-- The cached reference curvature `K_Kappa0 = K_Kappa_bar / J` of
`CosseratRod.set_reference_strains` (rods/_base.py, line 266). -/
def rodKKappa0 (rod : RodModel nel nqe nquad) (el : Fin nel) (i : Fin nquad) :
    Fin 3 → ℝ :=
  fun c => (rod.eval (rodQe rod rod.Q el) (rod.qp el i)).K_Kappa_bar c / rodRefJ rod el i

/-- The current axial/shear strain `K_Gamma = K_Gamma_bar / J` evaluated
at a quadrature point from the current element coordinates, as in
`CosseratRod.E_pot_el` (rods/_base.py, lines 556-562). -/
def rodKGamma (rod : RodModel nel nqe nquad) (q : Fin rod.nqr → ℝ)
    (el : Fin nel) (i : Fin nquad) : Fin 3 → ℝ :=
  fun c => (rod.eval (rodQe rod q el) (rod.qp el i)).K_Gamma_bar c / rodRefJ rod el i

/-- The current curvature `K_Kappa = K_Kappa_bar / J` evaluated at a
quadrature point from the current element coordinates. -/
def rodKKappa (rod : RodModel nel nqe nquad) (q : Fin rod.nqr → ℝ)
    (el : Fin nel) (i : Fin nquad) : Fin 3 → ℝ :=
  fun c => (rod.eval (rodQe rod q el) (rod.qp el i)).K_Kappa_bar c / rodRefJ rod el i

/-- `CosseratRod.eval_strains` (rods/_base.py, lines 594-610): evaluate
`_eval` at the reference element coordinates and at the current element
coordinates of the element containing `xi`, scale both by the reference
Jacobian `J = norm(K_Gamma_bar0)`, and return the strain and curvature
differences `(K_Gamma - K_Gamma0, K_Kappa - K_Kappa0)`. -/
def rodEvalStrains (rod : RodModel nel nqe nquad) (t : ℝ)
    (q : Fin rod.nqr → ℝ) (la_c : ℝ) (xi : ℝ) :
    (Fin 3 → ℝ) × (Fin 3 → ℝ) :=
  let el := rod.element_number xi
  let Qe := rodQe rod rod.Q el
  let qe := rodQe rod q el
  let e0 := rod.eval Qe xi
  let J := eucNorm e0.K_Gamma_bar
  let e := rod.eval qe xi
  (fun c => e.K_Gamma_bar c / J - e0.K_Gamma_bar c / J,
   fun c => e.K_Kappa_bar c / J - e0.K_Kappa_bar c / J)

/-- The Euclidean norm of the sub-vector of `v` with indices in `l`
(the norm of a friction block `P_T[i_T]`). -/
def blockNorm {n : ℕ} (l : List (Fin n)) (v : Fin n → ℝ) : ℝ :=
  Real.sqrt (((l.map v).map fun a => a ^ 2).sum)

/-! ### Concrete instances used by the witnesses (real part) -/

/-- A Moreau model with no degrees of freedom and no constraints. -/
def mW : MoreauModel 0 0 0 0 0 0 where
  dt := 1
  fix_point_tol := 1
  fix_point_max_iter := 1
  q_dot := fun _ _ _ => Fin.elim0
  M := fun _ _ => Matrix.of fun i _ => Fin.elim0 i
  h := fun _ _ _ => Fin.elim0
  W_g := fun _ _ => Matrix.of fun i _ => Fin.elim0 i
  W_gamma := fun _ _ => Matrix.of fun i _ => Fin.elim0 i
  W_N := fun _ _ => Matrix.of fun i _ => Fin.elim0 i
  W_T := fun _ _ => Matrix.of fun i _ => Fin.elim0 i
  g_dot_u := fun _ _ => Matrix.of fun i _ => Fin.elim0 i
  chi_g := fun _ _ => Fin.elim0
  gamma_u := fun _ _ => Matrix.of fun i _ => Fin.elim0 i
  chi_gamma := fun _ _ => Fin.elim0
  g_N := fun _ _ => Fin.elim0
  xi_N := fun _ _ _ _ => Fin.elim0
  xi_T := fun _ _ _ _ => Fin.elim0
  NT_connectivity := Fin.elim0
  prox_r_N := Fin.elim0
  prox_r_T := Fin.elim0
  mu := Fin.elim0
  solveLin := fun _ b => b
  step_callback := fun _ q u => (q, u)

/-- The zero state for `mW`. -/
def sW : MoreauState 0 0 0 0 0 0 where
  tk := 0
  qk := Fin.elim0
  uk := Fin.elim0
  la_gk := Fin.elim0
  la_gammak := Fin.elim0
  P_Nk := Fin.elim0
  P_Tk := Fin.elim0

/-- A Moreau model with one permanently active normal contact (gap `-1`),
no friction, vanishing contact velocity, and unit prox parameter: the
fixed-point iteration converges in its first round with zero impulse. -/
def mAct : MoreauModel 0 0 0 0 1 0 where
  dt := 1
  fix_point_tol := 1
  fix_point_max_iter := 1
  q_dot := fun _ _ _ => Fin.elim0
  M := fun _ _ => Matrix.of fun i _ => Fin.elim0 i
  h := fun _ _ _ => Fin.elim0
  W_g := fun _ _ => Matrix.of fun i _ => Fin.elim0 i
  W_gamma := fun _ _ => Matrix.of fun i _ => Fin.elim0 i
  W_N := fun _ _ => Matrix.of fun i _ => Fin.elim0 i
  W_T := fun _ _ => Matrix.of fun i _ => Fin.elim0 i
  g_dot_u := fun _ _ => Matrix.of fun i _ => Fin.elim0 i
  chi_g := fun _ _ => Fin.elim0
  gamma_u := fun _ _ => Matrix.of fun i _ => Fin.elim0 i
  chi_gamma := fun _ _ => Fin.elim0
  g_N := fun _ _ _ => -1
  xi_N := fun _ _ _ _ _ => 0
  xi_T := fun _ _ _ _ => Fin.elim0
  NT_connectivity := fun _ => []
  prox_r_N := fun _ => 1
  prox_r_T := fun _ => 1
  mu := fun _ => 0
  solveLin := fun _ b => b
  step_callback := fun _ q u => (q, u)

/-- The zero state for `mAct`. -/
def sAct : MoreauState 0 0 0 0 1 0 where
  tk := 0
  qk := Fin.elim0
  uk := Fin.elim0
  la_gk := Fin.elim0
  la_gammak := Fin.elim0
  P_Nk := fun _ => 0
  P_Tk := Fin.elim0

/-- `mAct` with the iteration cap set to zero: the inner fixed-point loop
exhausts immediately and the step reports non-convergence. -/
def mBad : MoreauModel 0 0 0 0 1 0 :=
  { mAct with fix_point_max_iter := 0 }

/-- A one-element, one-coordinate rod model whose `_eval` is constant. -/
def rod0 : RodModel 1 1 1 where
  nqr := 1
  Q := fun _ => 0
  elDOF := fun _ _ => 0
  element_number := fun _ => 0
  qp := fun _ _ => 0
  eval := fun _ _ => ⟨fun _ => 0, 1, fun _ => 1, fun _ => 0⟩

/-- A one-node rod configuration whose quaternion block is the unit
quaternion `(1, 0, 0, 0)`. -/
def rodQUnit : RodQIdx 1 → ℝ :=
  fun i =>
    match i with
    | .inl _ => 0
    | .inr (_, c) => ![1, 0, 0, 0] c

/-- A one-node rod velocity with body angular velocity `(1, 0, 0)`. -/
def rodUSpin : RodUIdx 1 → ℝ :=
  fun i =>
    match i with
    | .inl _ => 0
    | .inr (_, c) => ![1, 0, 0] c

/-- A one-node rod configuration whose quaternion block is the non-unit
quaternion `(2, 0, 0, 0)`. -/
def rodQDouble : RodQIdx 1 → ℝ :=
  fun i =>
    match i with
    | .inl _ => 0
    | .inr (_, c) => ![2, 0, 0, 0] c

end

/-! ## Theorems -/

/-- C7: `consistent_initial_conditions` fails with an assertion error if
and only if the given initial data are infeasible or the solved state
violates a constraint level: success is equivalent to the conjunction of
the source's assertions - every initial normal gap non-negative, closing
velocities of closed gaps admissible, the unilateral acceleration check
after the KKT solve, and the position-, velocity- and acceleration-level
bilateral residuals `g, g_dot, g_ddot, gamma, gamma_dot, g_S` all within
tolerance at the solved `u_dot0`. -/
theorem cic_assertions_iff
    (sys : CICSystem nq nu nla_g nla_gamma nla_N nla_F nla_S)
    (spsolve : Matrix (TriIdx nu nla_g nla_gamma) (TriIdx nu nla_g nla_gamma) ℚ →
      (TriIdx nu nla_g nla_gamma → ℚ) → (TriIdx nu nla_g nla_gamma → ℚ))
    (rtol atol : ℚ) :
    (consistentInitialConditions sys spsolve rtol atol).isSome ↔
      ((∀ i, 0 ≤ sys.g_N sys.t0 sys.q0 i)
        ∧ ((∀ i, 0 ≤ cicMaskedGNdot sys i) ∨ allcloseZero (cicMaskedGNdot sys) atol)
        ∧ ((∀ i, 0 ≤ sys.g_N_ddot sys.t0 sys.q0 sys.u0
              (fun k => spsolve (kktA sys) (kktB sys) (.inl k)) i)
            ∨ allcloseZero
                (cicMaskedGNddot sys (fun k => spsolve (kktA sys) (kktB sys) (.inl k)))
                atol)
        ∧ allcloseZero (sys.g sys.t0 sys.q0) atol
        ∧ allcloseZero (sys.g_dot sys.t0 sys.q0 sys.u0) atol
        ∧ allcloseZero (sys.g_ddot sys.t0 sys.q0 sys.u0
            (fun k => spsolve (kktA sys) (kktB sys) (.inl k))) atol
        ∧ allcloseZero (sys.gamma sys.t0 sys.q0 sys.u0) atol
        ∧ allcloseZero (sys.gamma_dot sys.t0 sys.q0 sys.u0
            (fun k => spsolve (kktA sys) (kktB sys) (.inl k))) atol
        ∧ allcloseZero (sys.g_S sys.t0 sys.q0) atol) := by
  simp only [consistentInitialConditions]
  split_ifs with hcond
  · simpa using hcond
  · simpa using hcond

/-- Witness for C7: on the trivial feasible system every assertion holds
and the routine succeeds. -/
theorem cic_assertions_iff_witness :
    (consistentInitialConditions cicSys0 spsolve0 0 0).isSome :=
  (cic_assertions_iff cicSys0 spsolve0 0 0).mpr (by decide)

/-- C1: for a system with feasible initial data (the routine succeeds)
and a solver that solves the assembled system exactly,
`consistent_initial_conditions` returns `t0, q0, u0` unchanged, the
kinematic rate `q_dot0`, and the three slices of the KKT solution as
`u_dot0, la_g0, la_gamma0`; these slices satisfy the KKT block equations
`M0 u_dot0 = h0 + W_N0 la_N0 + W_F0 la_F0 + W_g0 la_g0 + W_gamma0 la_gamma0`,
`W_g0^T u_dot0 = -zeta_g0`, `W_gamma0^T u_dot0 = -zeta_gamma0`. -/
theorem cic_solves_kkt
    (sys : CICSystem nq nu nla_g nla_gamma nla_N nla_F nla_S)
    (spsolve : Matrix (TriIdx nu nla_g nla_gamma) (TriIdx nu nla_g nla_gamma) ℚ →
      (TriIdx nu nla_g nla_gamma → ℚ) → (TriIdx nu nla_g nla_gamma → ℚ))
    (rtol atol : ℚ) (out : CICResult nq nu nla_g nla_gamma)
    (hout : consistentInitialConditions sys spsolve rtol atol = some out)
    (hsol : (kktA sys).mulVec (spsolve (kktA sys) (kktB sys)) = kktB sys) :
    out.t0 = sys.t0 ∧ out.q0 = sys.q0 ∧ out.u0 = sys.u0
      ∧ out.q_dot0 = sys.q_dot sys.t0 sys.q0 sys.u0
      ∧ out.u_dot0 = (fun i => spsolve (kktA sys) (kktB sys) (.inl i))
      ∧ out.la_g0 = (fun ig => spsolve (kktA sys) (kktB sys) (.inr (.inl ig)))
      ∧ out.la_gamma0 = (fun ic => spsolve (kktA sys) (kktB sys) (.inr (.inr ic)))
      ∧ (∀ i, (sys.M sys.t0 sys.q0).mulVec out.u_dot0 i
          = sys.h sys.t0 sys.q0 sys.u0 i
            + (sys.W_N sys.t0 sys.q0).mulVec sys.la_N0 i
            + (sys.W_F sys.t0 sys.q0).mulVec sys.la_F0 i
            + (sys.W_g sys.t0 sys.q0).mulVec out.la_g0 i
            + (sys.W_gamma sys.t0 sys.q0).mulVec out.la_gamma0 i)
      ∧ (∀ ig, (sys.W_g sys.t0 sys.q0).transpose.mulVec out.u_dot0 ig
          = -sys.zeta_g sys.t0 sys.q0 sys.u0 ig)
      ∧ (∀ ic, (sys.W_gamma sys.t0 sys.q0).transpose.mulVec out.u_dot0 ic
          = -sys.zeta_gamma sys.t0 sys.q0 sys.u0 ic) := by
  simp only [consistentInitialConditions] at hout
  split_ifs at hout
  injection hout with hout
  subst hout
  refine ⟨rfl, rfl, rfl, rfl, rfl, rfl, rfl, ?_, ?_, ?_⟩
  · intro i
    have h1 := congrFun hsol (Sum.inl i)
    simp only [Matrix.mulVec, Matrix.dotProduct, kktA, kktB, Matrix.of_apply,
      Fintype.sum_sum_type] at h1 ⊢
    simp only [neg_mul] at h1
    rw [Finset.sum_neg_distrib, Finset.sum_neg_distrib] at h1
    linarith [h1]
  · intro ig
    have h1 := congrFun hsol (Sum.inr (Sum.inl ig))
    simp only [Matrix.mulVec, Matrix.dotProduct, kktA, kktB, Matrix.of_apply,
      Matrix.transpose_apply, Fintype.sum_sum_type, zero_mul,
      Finset.sum_const_zero, add_zero] at h1 ⊢
    linarith [h1]
  · intro ic
    have h1 := congrFun hsol (Sum.inr (Sum.inr ic))
    simp only [Matrix.mulVec, Matrix.dotProduct, kktA, kktB, Matrix.of_apply,
      Matrix.transpose_apply, Fintype.sum_sum_type, zero_mul,
      Finset.sum_const_zero, add_zero] at h1 ⊢
    linarith [h1]

/-- The pass-through solver solves the (identity) KKT matrix of the
trivial system exactly. -/
theorem kkt0_solved :
    (kktA cicSys0).mulVec (spsolve0 (kktA cicSys0) (kktB cicSys0)) = kktB cicSys0 := by
  funext i
  match i with
  | .inl i =>
      simp [Matrix.mulVec, Matrix.dotProduct, kktA, kktB, spsolve0, cicSys0,
        Fintype.sum_sum_type]
  | .inr (.inl ig) => exact ig.elim0
  | .inr (.inr ic) => exact ic.elim0

/-- `consistent_initial_conditions` succeeds on the trivial system and
returns the zero data. -/
theorem cicSys0_eval :
    consistentInitialConditions cicSys0 spsolve0 0 0 = some cicOut0 := by
  simp only [consistentInitialConditions]
  rw [if_pos]
  · refine congrArg some ?_
    unfold cicOut0
    rw [CICResult.mk.injEq]
    refine ⟨rfl, rfl, rfl, rfl, ?_,
      funext fun ig => ig.elim0, funext fun ic => ic.elim0⟩
    funext i
    simp [spsolve0, kktB, cicSys0, Matrix.mulVec, Matrix.dotProduct]
  · refine ⟨fun i => i.elim0, Or.inl fun i => i.elim0, Or.inl fun i => i.elim0,
      fun i => i.elim0, fun i => i.elim0, fun i => i.elim0, fun i => i.elim0,
      fun i => i.elim0, fun i => i.elim0⟩

/-- Witness for C1: the trivial system succeeds, the pass-through solver
solves its (identity) KKT matrix exactly, and the theorem applies. -/
theorem cic_solves_kkt_witness :
    consistentInitialConditions cicSys0 spsolve0 0 0 = some cicOut0
      ∧ (∀ i, (cicSys0.M cicSys0.t0 cicSys0.q0).mulVec cicOut0.u_dot0 i
          = cicSys0.h cicSys0.t0 cicSys0.q0 cicSys0.u0 i
            + (cicSys0.W_N cicSys0.t0 cicSys0.q0).mulVec cicSys0.la_N0 i
            + (cicSys0.W_F cicSys0.t0 cicSys0.q0).mulVec cicSys0.la_F0 i
            + (cicSys0.W_g cicSys0.t0 cicSys0.q0).mulVec cicOut0.la_g0 i
            + (cicSys0.W_gamma cicSys0.t0 cicSys0.q0).mulVec cicOut0.la_gamma0 i) :=
  ⟨cicSys0_eval,
    (cic_solves_kkt cicSys0 spsolve0 0 0 cicOut0 cicSys0_eval kkt0_solved).2.2.2.2.2.2.2.1⟩

/-- C9: for every system on which `consistent_initial_conditions`
succeeds (returning its 7-tuple), the `LobattoIIIAB` constructor fails
with an unpacking error before any time step is taken, because it
destructures that tuple into 9 names. -/
theorem lobatto_init_unpack_error
    (sys : CICSystem nq nu nla_g nla_gamma nla_N nla_F nla_S)
    (spsolve : Matrix (TriIdx nu nla_g nla_gamma) (TriIdx nu nla_g nla_gamma) ℚ →
      (TriIdx nu nla_g nla_gamma → ℚ) → (TriIdx nu nla_g nla_gamma → ℚ))
    (rtol atol : ℚ)
    (hfeasible : (consistentInitialConditions sys spsolve rtol atol).isSome) :
    lobattoIIIABInit sys spsolve rtol atol = .error "unpack" := by
  obtain ⟨out, hout⟩ := Option.isSome_iff_exists.mp hfeasible
  unfold lobattoIIIABInit cicReturnTuple
  rw [hout]
  rfl

/-- Witness for C9: the trivial feasible system triggers the unpacking
error. -/
theorem lobatto_init_unpack_error_witness :
    lobattoIIIABInit cicSys0 spsolve0 0 0 = .error "unpack" :=
  lobatto_init_unpack_error cicSys0 spsolve0 0 0 (by rw [cicSys0_eval]; rfl)

/-- C8 counterexample: the claim says each algebraic error component is
multiplied by the step size raised to its DAE index; for a single
position-level bilateral multiplier (index 3 in the constructed array of
`dae_index = 3`) with step size `1/2` and unit error, the code produces
`(1/2)^2 = 1/4` (exponent `index - 1` after `_validate_index_array`),
not the claimed `(1/2)^3 = 1/8`. -/
theorem radau_error_scaling_counterexample :
    radauScaledError (1 / 2 : ℚ) (fun _ => 1)
        (validateIndexArray (radauIndexArray .three 0 0 1 0 0 0))
      ≠ claimScaledError .three 0 0 1 0 0 0 (1 / 2) (fun _ => 1) := by
  intro hcontra
  have h := congrFun hcontra (Sum.inr (Sum.inl 0))
  simp [radauScaledError, claimScaledError, validateIndexArray, radauIndexArray] at h

/-- C8 amended: before the error norm is computed, the embedded error
estimate's component for each algebraic variable is multiplied by the
step size raised to the power of that variable's DAE index *minus one*
(`_validate_index_array` stores `max(0, index - 1)`): with
`dae_index = 3`, `h^2` for the position-level bilateral multipliers
(index 3), `h^1` for the velocity-level bilateral multipliers (index 2),
`h^2` for the quaternion-norm multipliers (index 3), while the
differential components `q, u` are left unscaled. -/
theorem radau_error_scaling_amended (hstep : ℚ)
    (nqv nuv ng nc nS nextra : ℕ)
    (err : RadauIdx nqv nuv ng nc nS nextra → ℚ) :
    (∀ i : Fin nqv ⊕ Fin nuv,
        radauScaledError hstep err
          (validateIndexArray (radauIndexArray .three nqv nuv ng nc nS nextra))
          (.inl i) = err (.inl i))
      ∧ (∀ ig : Fin ng,
          radauScaledError hstep err
            (validateIndexArray (radauIndexArray .three nqv nuv ng nc nS nextra))
            (.inr (.inl ig)) = err (.inr (.inl ig)) * hstep ^ 2)
      ∧ (∀ ic : Fin nc,
          radauScaledError hstep err
            (validateIndexArray (radauIndexArray .three nqv nuv ng nc nS nextra))
            (.inr (.inr (.inl ic))) = err (.inr (.inr (.inl ic))) * hstep ^ 1)
      ∧ (∀ iS : Fin nS,
          radauScaledError hstep err
            (validateIndexArray (radauIndexArray .three nqv nuv ng nc nS nextra))
            (.inr (.inr (.inr (.inl iS)))) = err (.inr (.inr (.inr (.inl iS)))) * hstep ^ 2) := by
  refine ⟨fun i => ?_, fun ig => ?_, fun ic => ?_, fun iS => ?_⟩ <;>
    simp [radauScaledError, validateIndexArray, radauIndexArray]

/-! ### Rod theorems -/

/-- C4: when the element coordinates equal the reference configuration,
the strain measures scaled by the reference Jacobian reproduce the cached
reference values `K_Gamma0, K_Kappa0` exactly, and `eval_strains` returns
exactly zero strain and curvature differences. -/
theorem rod_reference_strain_identity {nel nqe nquad : ℕ}
    (rod : RodModel nel nqe nquad) (t la_c xi : ℝ) (q : Fin rod.nqr → ℝ)
    (el : Fin nel) (i : Fin nquad)
    (hq : ∀ k, q (rod.elDOF el k) = rod.Q (rod.elDOF el k))
    (hxi : ∀ k, q (rod.elDOF (rod.element_number xi) k)
      = rod.Q (rod.elDOF (rod.element_number xi) k)) :
    rodKGamma rod q el i = rodKGamma0 rod el i
      ∧ rodKKappa rod q el i = rodKKappa0 rod el i
      ∧ rodEvalStrains rod t q la_c xi = (fun _ => 0, fun _ => 0) := by
  have hqe : rodQe rod q el = rodQe rod rod.Q el := funext hq
  have hqe2 : rodQe rod q (rod.element_number xi)
      = rodQe rod rod.Q (rod.element_number xi) := funext hxi
  refine ⟨?_, ?_, ?_⟩
  · unfold rodKGamma rodKGamma0
    rw [hqe]
  · unfold rodKKappa rodKKappa0
    rw [hqe]
  · simp only [rodEvalStrains]
    rw [hqe2]
    refine Prod.ext ?_ ?_ <;> funext c <;> exact sub_self _

/-- Witness for C4: a concrete one-element rod at its reference
configuration has exactly zero strain differences and reproduces its
cached reference strain. -/
theorem rod_reference_strain_identity_witness :
    rodKGamma rod0 rod0.Q 0 0 = rodKGamma0 rod0 0 0
      ∧ rodEvalStrains rod0 0 rod0.Q 0 0 = (fun _ => 0, fun _ => 0) :=
  ⟨(rod_reference_strain_identity rod0 0 0 0 rod0.Q 0 0
      (fun _ => rfl) (fun _ => rfl)).1,
    (rod_reference_strain_identity rod0 0 0 0 rod0.Q 0 0
      (fun _ => rfl) (fun _ => rfl)).2.2⟩

/-- The centerline rows of the kinematic matrix act as the identity on
the translational velocities, for every configuration. -/
theorem rod_q_dot_u_mulVec_inl {N : ℕ} (t : ℝ) (q : RodQIdx N → ℝ)
    (u : RodUIdx N → ℝ) (nd : Fin N) (c : Fin 3) :
    (rod_q_dot_u t q).mulVec u (.inl (nd, c)) = u (.inl (nd, c)) := by
  simp only [Matrix.mulVec, Matrix.dotProduct, rod_q_dot_u, Matrix.of_apply,
    Fintype.sum_sum_type]
  rw [Finset.sum_congr rfl (fun p _ => show
      (if nd = p.1 ∧ c = p.2 then (1 : ℝ) else 0) * u (.inl p)
        = if (nd, c) = p then u (.inl p) else 0 by
    by_cases h : (nd, c) = p
    · rw [if_pos h, if_pos ⟨congrArg Prod.fst h, congrArg Prod.snd h⟩, one_mul]
    · rw [if_neg h, if_neg fun hc => h (Prod.ext hc.1 hc.2), zero_mul])]
  simp

/-- The orientation rows of the kinematic matrix apply the quaternion
kinematic map of the normalized nodal quaternion to that node's angular
velocity, for every configuration. -/
theorem rod_q_dot_u_mulVec_inr {N : ℕ} (t : ℝ) (q : RodQIdx N → ℝ)
    (u : RodUIdx N → ℝ) (nd : Fin N) (c : Fin 4) :
    (rod_q_dot_u t q).mulVec u (.inr (nd, c))
      = (T_SO3_inv_quat (fun k => pBlock q nd k / eucNorm (pBlock q nd)) false).mulVec
          (omegaBlock u nd) c := by
  simp only [Matrix.mulVec, Matrix.dotProduct, rod_q_dot_u, Matrix.of_apply,
    Fintype.sum_sum_type, Fintype.sum_prod_type, zero_mul, Finset.sum_const_zero]
  rw [Finset.sum_congr rfl (fun n' _ => Finset.sum_congr rfl (fun c' _ => by
    rw [ite_mul, zero_mul]))]
  rw [Finset.sum_congr rfl (fun n' _ => by
    rw [show (∑ c', if nd = n' then
        T_SO3_inv_quat (fun k => pBlock q nd k / eucNorm (pBlock q nd)) false c c'
          * u (.inr (n', c')) else 0)
      = if nd = n' then (∑ c',
          T_SO3_inv_quat (fun k => pBlock q nd k / eucNorm (pBlock q nd)) false c c'
            * u (.inr (n', c'))) else 0 by split_ifs <;> simp])]
  rw [Finset.sum_ite_eq Finset.univ nd]
  simp [omegaBlock]

/-- C10: on configurations whose nodal quaternion blocks all have unit
norm, `q_dot(t, q, u) = q_dot_u(t, q) @ u`; the centerline rows agree
for every configuration; and there is a non-unit configuration on which
the two disagree on the orientation part, since `q_dot_u` normalizes the
nodal quaternion while `q_dot` uses the raw one. -/
theorem rod_qdot_qdotu_factorization {N : ℕ} (t : ℝ) (q : RodQIdx N → ℝ)
    (u : RodUIdx N → ℝ)
    (hunit : ∀ nd, eucNorm (pBlock q nd) = 1) :
    rod_q_dot t q u = (rod_q_dot_u t q).mulVec u
      ∧ (∀ (q' : RodQIdx N → ℝ) (u' : RodUIdx N → ℝ) (nd : Fin N) (c : Fin 3),
          rod_q_dot t q' u' (.inl (nd, c)) = (rod_q_dot_u t q').mulVec u' (.inl (nd, c)))
      ∧ (∃ (q' : RodQIdx 1 → ℝ) (u' : RodUIdx 1 → ℝ) (i : RodQIdx 1),
          rod_q_dot 0 q' u' i ≠ (rod_q_dot_u 0 q').mulVec u' i) := by
  have h4 : Real.sqrt 4 = 2 := by
    rw [show (4 : ℝ) = 2 ^ 2 by norm_num]
    exact Real.sqrt_sq (by norm_num)
  refine ⟨?_, ?_, ?_⟩
  · funext i
    match i with
    | .inl (nd, c) => exact (rod_q_dot_u_mulVec_inl t q u nd c).symm
    | .inr (nd, c) =>
        rw [rod_q_dot_u_mulVec_inr t q u nd c]
        simp only [rod_q_dot, hunit nd, div_one]
  · intro q' u' nd c
    exact (rod_q_dot_u_mulVec_inl t q' u' nd c).symm
  · refine ⟨rodQDouble, rodUSpin, .inr (0, 1), ?_⟩
    rw [rod_q_dot_u_mulVec_inr]
    have hnorm : eucNorm (pBlock rodQDouble 0) = 2 := by
      rw [eucNorm, Fin.sum_univ_four]
      simp only [pBlock, rodQDouble, Matrix.cons_val_zero, Matrix.cons_val_one,
        Matrix.head_cons, Matrix.cons_val_two, Matrix.cons_val_three,
        Matrix.tail_cons]
      norm_num [h4]
    rw [hnorm]
    simp only [rod_q_dot, T_SO3_inv_quat, quatKinMatrix, Matrix.mulVec,
      Matrix.dotProduct, Fin.sum_univ_three, Matrix.smul_apply, smul_eq_mul,
      pBlock, omegaBlock, rodQDouble, rodUSpin, Matrix.cons_val', Matrix.cons_val_zero,
      Matrix.cons_val_one, Matrix.head_cons, Matrix.cons_val_two,
      Matrix.cons_val_three, Matrix.tail_cons, Matrix.empty_val',
      Matrix.cons_val_fin_one, Matrix.head_fin_const]
    norm_num

/-- Witness for C10: the factorization applies at the concrete unit
quaternion configuration. -/
theorem rod_qdot_qdotu_factorization_witness :
    rod_q_dot 0 rodQUnit rodUSpin = (rod_q_dot_u 0 rodQUnit).mulVec rodUSpin :=
  (rod_qdot_qdotu_factorization 0 rodQUnit rodUSpin
    (fun nd => by
      rw [eucNorm, Fin.sum_univ_four]
      simp only [pBlock, rodQUnit, Matrix.cons_val_zero, Matrix.cons_val_one,
        Matrix.head_cons, Matrix.cons_val_two, Matrix.cons_val_three,
        Matrix.tail_cons]
      norm_num)).1

/-! ### Moreau theorems -/

open scoped Classical

variable {nq nu nla_g nla_gamma nla_N nla_T : ℕ}

/-- The fixed-point iteration never changes the step time and the
predicted position it was started with. -/
theorem moreauFixPoint_tk1_qk1 (m : MoreauModel nq nu nla_g nla_gamma nla_N nla_T)
    (tk1 : ℝ) (qk1 : Fin nq → ℝ) (uk : Fin nu → ℝ)
    (act : Fin nla_N → Prop) (actT : Fin nla_T → Prop)
    (A : Matrix (TriIdx nu nla_g nla_gamma) (TriIdx nu nla_g nla_gamma) ℝ) :
    ∀ (fuel j : ℕ) (e : ℝ) (uk1 : Fin nu → ℝ) (lg : Fin nla_g → ℝ)
      (lc : Fin nla_gamma → ℝ) (PN : Fin nla_N → ℝ) (PT : Fin nla_T → ℝ),
      (moreauFixPoint m tk1 qk1 uk act actT A fuel j e uk1 lg lc PN PT).tk1 = tk1
        ∧ (moreauFixPoint m tk1 qk1 uk act actT A fuel j e uk1 lg lc PN PT).qk1 = qk1 := by
  intro fuel
  induction fuel with
  | zero => intro j e uk1 lg lc PN PT; exact ⟨rfl, rfl⟩
  | succ fuel ih =>
      intro j e uk1 lg lc PN PT
      simp only [moreauFixPoint]
      split_ifs
      · exact ⟨rfl, rfl⟩
      · exact ih _ _ _ _ _ _ _

/-- C2: in every Moreau step, the new position is the explicit
prediction `qk + dt * q_dot(tk, qk, uk)` from the previous velocity; the
active set is exactly the set of contacts with a non-positive gap at the
predicted position; the right-hand side of the first linear solve
carries the previous accepted step's impulses restricted to the active
sets; and with no active contact the returned velocity is the velocity
slice of that first solve. -/
theorem moreau_step_prediction_activeset_warmstart
    (m : MoreauModel nq nu nla_g nla_gamma nla_N nla_T)
    (s : MoreauState nq nu nla_g nla_gamma nla_N nla_T) :
    ((moreauStepFixedPoint m s).qk1
        = fun i => s.qk i + m.dt * m.q_dot s.tk s.qk s.uk i)
      ∧ (∀ i, moreauActiveN m s i
          ↔ m.g_N (s.tk + m.dt) (fun j => s.qk j + m.dt * m.q_dot s.tk s.qk s.uk j) i ≤ 0)
      ∧ (∀ i : Fin nu, moreauFirstRhs m s (.inl i)
          = (m.M (s.tk + m.dt) (moreauQPred m s)).mulVec s.uk i
            + m.dt * m.h (s.tk + m.dt) (moreauQPred m s) s.uk i
            + (∑ jN, if moreauActiveN m s jN
                then m.W_N (s.tk + m.dt) (moreauQPred m s) i jN * s.P_Nk jN else 0)
            + (∑ jT, if moreauActiveT m s jT
                then m.W_T (s.tk + m.dt) (moreauQPred m s) i jT * s.P_Tk jT else 0))
      ∧ ((¬∃ i, moreauActiveN m s i) →
          (moreauStepFixedPoint m s).uk1 = fun i => moreauFirstSolve m s (.inl i)) := by
  refine ⟨?_, fun i => Iff.rfl, fun i => ?_, fun hno => ?_⟩
  · simp only [moreauStepFixedPoint]
    split_ifs
    · exact (moreauFixPoint_tk1_qk1 m _ _ _ _ _ _ _ _ _ _ _ _ _ _).2
    · rfl
  · simp only [moreauFirstRhs, moreauRhs, maskVec, Matrix.mulVec, Matrix.dotProduct,
      mul_ite, mul_zero]
  · simp only [moreauStepFixedPoint]
    rw [if_neg hno]

/-- Witness for C2: the step structure at the trivial contact-free
model; the no-active-contact hypothesis of the last part holds there. -/
theorem moreau_step_prediction_activeset_warmstart_witness :
    ((moreauStepFixedPoint mW sW).qk1
        = fun i => sW.qk i + mW.dt * mW.q_dot sW.tk sW.qk sW.uk i)
      ∧ ((¬∃ i, moreauActiveN mW sW i) →
          (moreauStepFixedPoint mW sW).uk1 = fun i => moreauFirstSolve mW sW (.inl i)) :=
  ⟨(moreau_step_prediction_activeset_warmstart mW sW).1,
    (moreau_step_prediction_activeset_warmstart mW sW).2.2.2⟩

/-- The stepping loop succeeds exactly when every inner iteration along
the run converges. -/
theorem moreauSolveAux_ok_iff (m : MoreauModel nq nu nla_g nla_gamma nla_N nla_T) :
    ∀ (n : ℕ) (s : MoreauState nq nu nla_g nla_gamma nla_N nla_T),
      (∃ l, moreauSolveAux m n s = .ok l) ↔ moreauConvergedRun m n s := by
  intro n
  induction n with
  | zero => intro s; simp [moreauSolveAux, moreauConvergedRun]
  | succ n ih =>
      intro s
      simp only [moreauSolveAux, moreauConvergedRun]
      by_cases hc : (moreauStepFixedPoint m s).converged = true
      · rw [if_pos hc]
        cases haux : moreauSolveAux m n (moreauNextState m (moreauStepFixedPoint m s)) with
        | ok rest =>
            simp only [haux]
            exact ⟨fun _ => ⟨hc, (ih _).mp ⟨rest, haux⟩⟩, fun _ => ⟨_, rfl⟩⟩
        | error e =>
            simp only [haux]
            constructor
            · rintro ⟨l, hl⟩; cases hl
            · rintro ⟨-, hrun⟩
              obtain ⟨rest, hrest⟩ := (ih _).mpr hrun
              rw [hrest] at haux
              cases haux
      · rw [if_neg hc]
        constructor
        · rintro ⟨l, hl⟩; cases hl
        · rintro ⟨hc', -⟩; exact absurd hc' hc

/-- C6: a Moreau run succeeds exactly when every step's inner
fixed-point iteration converges, and a step whose inner iteration fails
to converge makes the whole run raise `RuntimeError` immediately, with
no recovery or step-size reduction. -/
theorem moreau_nonconvergence_fatal (m : MoreauModel nq nu nla_g nla_gamma nla_N nla_T)
    (n : ℕ) (s : MoreauState nq nu nla_g nla_gamma nla_N nla_T) :
    ((∃ l, moreauSolve m n s = .ok l) ↔ moreauConvergedRun m n s)
      ∧ (∀ s', (moreauStepFixedPoint m s').converged = false →
          ∀ k, moreauSolve m (k + 1) s' = .error ()) := by
  constructor
  · rw [← moreauSolveAux_ok_iff m n s]
    unfold moreauSolve
    cases haux : moreauSolveAux m n s with
    | ok rest => simp [haux]
    | error e => simp [haux]
  · intro s' hfail k
    unfold moreauSolve moreauSolveAux
    rw [if_neg (by rw [hfail]; exact Bool.false_ne_true)]

/-- Witness for C6: with the iteration cap set to zero and an active
contact the inner iteration cannot converge, and the one-step run
terminates with the fatal error. -/
theorem moreau_nonconvergence_fatal_witness :
    moreauSolve mBad 1 sAct = .error () :=
  (moreau_nonconvergence_fatal mBad 1 sAct).2 sAct
    (by
      simp only [moreauStepFixedPoint]
      rw [if_pos ⟨0, by norm_num [moreauActiveN, mBad, mAct]⟩]
      rfl)
    0

/-- Every entry the stepping loop appends is the record of an accepted
step, hence its position and velocity have passed through the model's
step callback (`moreauRecOf` applies `step_callback` by definition). -/
theorem moreauSolveAux_entries (m : MoreauModel nq nu nla_g nla_gamma nla_N nla_T) :
    ∀ (n : ℕ) (s : MoreauState nq nu nla_g nla_gamma nla_N nla_T)
      (l : List (MoreauRec nq nu nla_g nla_gamma nla_N nla_T)),
      moreauSolveAux m n s = .ok l →
      ∀ (j : ℕ) (hj : j < l.length), ∃ r, l.get ⟨j, hj⟩ = moreauRecOf m r := by
  intro n
  induction n with
  | zero =>
      intro s l h j hj
      simp only [moreauSolveAux] at h
      injection h with h
      subst h
      exact absurd hj (by simp)
  | succ n ih =>
      intro s l h j hj
      simp only [moreauSolveAux] at h
      by_cases hc : (moreauStepFixedPoint m s).converged = true
      · rw [if_pos hc] at h
        cases haux : moreauSolveAux m n (moreauNextState m (moreauStepFixedPoint m s)) with
        | ok rest =>
            rw [haux] at h
            injection h with h
            subst h
            match j with
            | 0 => exact ⟨moreauStepFixedPoint m s, rfl⟩
            | j + 1 => exact ih _ rest haux j (by simpa using hj)
        | error e => rw [haux] at h; cases h
      · rw [if_neg hc] at h; cases h

/-- Normalizing a nonzero vector yields a unit vector. -/
theorem eucNorm_normalized {n : ℕ} (p : Fin n → ℝ) (hp : p ≠ 0) :
    eucNorm (fun c => p c / eucNorm p) = 1 := by
  have hS : 0 < ∑ c, p c ^ 2 := by
    obtain ⟨c, hc⟩ : ∃ c, p c ≠ 0 := by
      by_contra hall
      push_neg at hall
      exact hp (funext hall)
    have h1 : 0 < p c ^ 2 := by positivity
    have h2 : p c ^ 2 ≤ ∑ j, p j ^ 2 :=
      Finset.single_le_sum (fun j _ => sq_nonneg (p j)) (Finset.mem_univ c)
    linarith
  have hn : 0 < eucNorm p := Real.sqrt_pos.mpr hS
  have h1 : ∀ c : Fin n, (p c / Real.sqrt (∑ j, p j ^ 2)) ^ 2
      = p c ^ 2 / ∑ j, p j ^ 2 := fun c => by
    rw [div_pow, Real.sq_sqrt hS.le]
  have hsum : ∑ c, (p c / Real.sqrt (∑ j, p j ^ 2)) ^ 2
      = (∑ c, p c ^ 2) / ∑ j, p j ^ 2 := by
    simp only [h1]
    rw [← Finset.sum_div]
  unfold eucNorm
  show Real.sqrt (∑ i, (p i / Real.sqrt (∑ j, p j ^ 2)) ^ 2) = 1
  rw [hsum, div_self hS.ne', Real.sqrt_one]

/-- C3: every position/velocity pair appended to the Moreau trajectory
record after an accepted step is the output of the system's step
callback; the CosseratRod step callback divides every nodal quaternion
block of `q` by its Euclidean norm and leaves `u` unchanged; hence after
the callback every (nonzero) quaternion node block has unit norm. -/
theorem moreau_trajectory_rod_callback
    (m : MoreauModel nq nu nla_g nla_gamma nla_N nla_T) (n : ℕ)
    (s : MoreauState nq nu nla_g nla_gamma nla_N nla_T)
    (l : List (MoreauRec nq nu nla_g nla_gamma nla_N nla_T))
    (hsolve : moreauSolve m n s = .ok l)
    (k : ℕ) (hk : k + 1 < l.length) :
    (∃ r, l.get ⟨k + 1, hk⟩ = moreauRecOf m r)
      ∧ (∀ (nn : ℕ) (t : ℝ) (q : RodQIdx nn → ℝ) (u : RodUIdx nn → ℝ),
          (rodStepCallback t q u).2 = u
            ∧ (∀ nd, pBlock (rodStepCallback t q u).1 nd
                = fun c => pBlock q nd c / eucNorm (pBlock q nd))
            ∧ (∀ nd, pBlock q nd ≠ 0 →
                eucNorm (pBlock (rodStepCallback t q u).1 nd) = 1)) := by
  constructor
  · unfold moreauSolve at hsolve
    cases haux : moreauSolveAux m n s with
    | ok rest =>
        rw [haux] at hsolve
        injection hsolve with hsolve
        subst hsolve
        exact moreauSolveAux_entries m n s rest haux k (by simpa using hk)
    | error e => rw [haux] at hsolve; cases hsolve
  · intro nn t q u
    refine ⟨rfl, fun nd => rfl, fun nd hnd => ?_⟩
    have : pBlock (rodStepCallback t q u).1 nd
        = fun c => pBlock q nd c / eucNorm (pBlock q nd) := rfl
    rw [this]
    exact eucNorm_normalized (pBlock q nd) hnd

/-- Witness for C3: a one-step run of the contact-free model, whose
second trajectory entry is the record of that step, together with the
rod callback facts. -/
theorem moreau_trajectory_rod_callback_witness :
    (∃ r, ([⟨sW.qk, sW.uk, sW.la_gk, sW.la_gammak, sW.P_Nk, sW.P_Tk⟩,
        moreauRecOf mW (moreauStepFixedPoint mW sW)] :
        List (MoreauRec 0 0 0 0 0 0)).get ⟨0 + 1, by norm_num⟩ = moreauRecOf mW r)
      ∧ (∀ (nn : ℕ) (t : ℝ) (q : RodQIdx nn → ℝ) (u : RodUIdx nn → ℝ),
          (rodStepCallback t q u).2 = u
            ∧ (∀ nd, pBlock (rodStepCallback t q u).1 nd
                = fun c => pBlock q nd c / eucNorm (pBlock q nd))
            ∧ (∀ nd, pBlock q nd ≠ 0 →
                eucNorm (pBlock (rodStepCallback t q u).1 nd) = 1)) := by
  have hconv : (moreauStepFixedPoint mW sW).converged = true := by
    simp only [moreauStepFixedPoint]
    rw [if_neg]
    rintro ⟨i, -⟩
    exact i.elim0
  have hsolve : moreauSolve mW 1 sW
      = .ok [⟨sW.qk, sW.uk, sW.la_gk, sW.la_gammak, sW.P_Nk, sW.P_Tk⟩,
          moreauRecOf mW (moreauStepFixedPoint mW sW)] := by
    unfold moreauSolve moreauSolveAux
    rw [if_pos hconv]
    rfl
  exact moreau_trajectory_rod_callback mW 1 sW _ hsolve 0 (by norm_num)

/-- The componentwise normal prox image is non-negative. -/
theorem prox_Rn0_nonneg (x : ℝ) : 0 ≤ prox_Rn0 x :=
  le_max_right x 0

/-- A sum of squares of list entries is non-negative. -/
theorem sq_map_sum_nonneg (x : List ℝ) : 0 ≤ (x.map fun a => a ^ 2).sum :=
  List.sum_nonneg fun a ha => by
    obtain ⟨b, -, rfl⟩ := List.mem_map.mp ha
    positivity

/-- The disk projection preserves the length of its block. -/
theorem prox_circle_length (x : List ℝ) (r : ℝ) :
    (prox_circle x r).length = x.length := by
  simp only [prox_circle]
  split_ifs <;> simp

/-- The disk projection lands inside the disk: for a non-negative radius
the Euclidean norm of `prox_circle x r` is at most `r`. -/
theorem prox_circle_norm_le (x : List ℝ) (r : ℝ) (hr : 0 ≤ r) :
    Real.sqrt (((prox_circle x r).map fun a => a ^ 2).sum) ≤ r := by
  simp only [prox_circle]
  split_ifs with hle
  · exact hle
  · push_neg at hle
    have hnx : 0 < Real.sqrt ((x.map fun a => a ^ 2).sum) := lt_of_le_of_lt hr hle
    have hmap : ((x.map fun a => r / Real.sqrt ((x.map fun b => b ^ 2).sum) * a).map
          fun a => a ^ 2).sum
        = (r / Real.sqrt ((x.map fun b => b ^ 2).sum)) ^ 2
            * (x.map fun b => b ^ 2).sum := by
      rw [List.map_map]
      have hcomp : ((fun a => a ^ 2)
            ∘ fun a => r / Real.sqrt ((x.map fun b => b ^ 2).sum) * a)
          = fun a => (r / Real.sqrt ((x.map fun b => b ^ 2).sum)) ^ 2 * a ^ 2 := by
        funext a
        simp only [Function.comp]
        ring
      rw [hcomp, List.sum_map_mul_left]
    rw [hmap, Real.sqrt_mul (sq_nonneg _), Real.sqrt_sq_eq_abs,
      abs_of_nonneg (div_nonneg hr hnx.le), div_mul_cancel₀ r hnx.ne']

/-- A numpy fancy assignment leaves positions outside the index list
unchanged. -/
theorem scatterBlock_not_mem {n : ℕ} (old : Fin n → ℝ) (l : List (Fin n))
    (vals : List ℝ) (j : Fin n) (hj : j ∉ l) :
    scatterBlock old l vals j = old j := by
  induction l generalizing vals with
  | nil => rfl
  | cons a l ih =>
      cases vals with
      | nil => rfl
      | cons v vs =>
          have ha : ¬a = j := fun h => hj (h ▸ List.mem_cons_self a l)
          simp only [scatterBlock, List.zip_cons_cons, List.foldr_cons]
          rw [if_neg ha]
          exact ih vs fun h => hj (List.mem_cons_of_mem a h)

/-- On positions inside the index list (with values for every position),
a numpy fancy assignment does not depend on the previous vector. -/
theorem scatterBlock_mem_indep {n : ℕ} (old old' : Fin n → ℝ)
    (l : List (Fin n)) (vals : List ℝ) (j : Fin n) (hj : j ∈ l)
    (hlen : vals.length = l.length) :
    scatterBlock old l vals j = scatterBlock old' l vals j := by
  induction l generalizing vals with
  | nil => cases hj
  | cons a l ih =>
      cases vals with
      | nil => simp at hlen
      | cons v vs =>
          simp only [scatterBlock, List.zip_cons_cons, List.foldr_cons]
          by_cases ha : a = j
          · rw [if_pos ha, if_pos ha]
          · rw [if_neg ha, if_neg ha]
            have hj' : j ∈ l := by
              rcases List.mem_cons.mp hj with h | h
              · exact absurd h.symm ha
              · exact h
            exact ih vs hj' (by simpa using hlen)

/-- Reading back the written positions of a duplicate-free fancy
assignment recovers exactly the written values. -/
theorem map_scatterBlock {n : ℕ} (old : Fin n → ℝ) :
    ∀ (l : List (Fin n)) (vals : List ℝ), l.Nodup → vals.length = l.length →
      l.map (scatterBlock old l vals) = vals := by
  intro l
  induction l with
  | nil =>
      intro vals _ hlen
      exact (List.length_eq_zero.mp hlen).symm ▸ rfl
  | cons a l ih =>
      intro vals hnd hlen
      cases vals with
      | nil => simp at hlen
      | cons v vs =>
          obtain ⟨hal, hndl⟩ := List.nodup_cons.mp hnd
          have hlen' : vs.length = l.length := by simpa using hlen
          simp only [List.map_cons]
          congr 1
          · simp [scatterBlock, List.zip_cons_cons, List.foldr_cons]
          · have hstep : ∀ j ∈ l,
                scatterBlock old (a :: l) (v :: vs) j = scatterBlock old l vs j := by
              intro j hj
              have ha : ¬a = j := fun h => hal (h ▸ hj)
              simp only [scatterBlock, List.zip_cons_cons, List.foldr_cons]
              rw [if_neg ha]
            rw [List.map_congr_left hstep]
            exact ih vs hndl hlen'

/-- The Euclidean norm of the block of components all of which vanish is
zero. -/
theorem blockNorm_eq_zero {n : ℕ} (l : List (Fin n)) (v : Fin n → ℝ)
    (hv : ∀ j ∈ l, v j = 0) : blockNorm l v = 0 := by
  unfold blockNorm
  have hsum : ((l.map v).map fun a => a ^ 2).sum = 0 := by
    apply List.sum_eq_zero
    intro a ha
    obtain ⟨b, hb, rfl⟩ := List.mem_map.mp ha
    obtain ⟨j, hj, rfl⟩ := List.mem_map.mp hb
    rw [hv j hj]
    ring
  rw [hsum, Real.sqrt_zero]

/-- One pass of the friction loop leaves components outside that
contact's block unchanged. -/
theorem moreauPTStep_untouched (m : MoreauModel nq nu nla_g nla_gamma nla_N nla_T)
    (tk1 : ℝ) (qk1 : Fin nq → ℝ) (uk uk1 : Fin nu → ℝ)
    (act : Fin nla_N → Prop) (PT : Fin nla_T → ℝ) (PN1 : Fin nla_N → ℝ)
    (acc : Fin nla_T → ℝ) (iN : Fin nla_N) (j : Fin nla_T)
    (hj : j ∉ m.NT_connectivity iN) :
    moreauPTStep m tk1 qk1 uk uk1 act PT PN1 acc iN j = acc j := by
  unfold moreauPTStep
  split_ifs with h
  · exact scatterBlock_not_mem acc _ _ j hj
  · rfl

/-- The friction loop leaves a component unchanged when no contact in
the remaining iteration list owns it. -/
theorem moreauPTFold_untouched (m : MoreauModel nq nu nla_g nla_gamma nla_N nla_T)
    (tk1 : ℝ) (qk1 : Fin nq → ℝ) (uk uk1 : Fin nu → ℝ)
    (act : Fin nla_N → Prop) (PT : Fin nla_T → ℝ) (PN1 : Fin nla_N → ℝ)
    (j : Fin nla_T) :
    ∀ (L : List (Fin nla_N)) (acc : Fin nla_T → ℝ),
      (∀ i ∈ L, j ∉ m.NT_connectivity i) →
      (L.foldl (moreauPTStep m tk1 qk1 uk uk1 act PT PN1) acc) j = acc j := by
  intro L
  induction L with
  | nil => intro acc _; rfl
  | cons a L ih =>
      intro acc hL
      rw [List.foldl_cons, ih _ fun i hi => hL i (List.mem_cons_of_mem a hi)]
      exact moreauPTStep_untouched m tk1 qk1 uk uk1 act PT PN1 acc a j
        (hL a (List.mem_cons_self a L))

/-- After the friction loop has run over a duplicate-free iteration list
containing the active contact `iN` (blocks of distinct contacts being
disjoint), the components of `iN`'s block hold the scattered projected
values. -/
theorem moreauPTFold_block (m : MoreauModel nq nu nla_g nla_gamma nla_N nla_T)
    (tk1 : ℝ) (qk1 : Fin nq → ℝ) (uk uk1 : Fin nu → ℝ)
    (act : Fin nla_N → Prop) (PT : Fin nla_T → ℝ) (PN1 : Fin nla_N → ℝ)
    (hdisj : ∀ i j, i ≠ j → ∀ a, a ∈ m.NT_connectivity i → a ∉ m.NT_connectivity j)
    (iN : Fin nla_N) (hact : act iN) (j : Fin nla_T)
    (hj : j ∈ m.NT_connectivity iN) :
    ∀ (L : List (Fin nla_N)), iN ∈ L → L.Nodup → ∀ acc : Fin nla_T → ℝ,
      (L.foldl (moreauPTStep m tk1 qk1 uk uk1 act PT PN1) acc) j
        = scatterBlock PT (m.NT_connectivity iN)
            (moreauPTVals m tk1 qk1 uk uk1 PT PN1 iN) j := by
  have hlen : (moreauPTVals m tk1 qk1 uk uk1 PT PN1 iN).length
      = (m.NT_connectivity iN).length := by
    unfold moreauPTVals
    rw [prox_circle_length, List.length_map]
  intro L
  induction L with
  | nil => intro h; cases h
  | cons a L ih =>
      intro hmem hnd acc
      obtain ⟨hanl, hndL⟩ := List.nodup_cons.mp hnd
      rw [List.foldl_cons]
      rcases List.mem_cons.mp hmem with heq | hmemL
      · subst heq
        rw [moreauPTFold_untouched m tk1 qk1 uk uk1 act PT PN1 j L _
            fun i hi => hdisj iN i (fun h => hanl (h ▸ hi)) j hj]
        unfold moreauPTStep
        rw [if_pos ⟨hact, List.ne_nil_of_mem hj⟩]
        exact scatterBlock_mem_indep acc PT _ _ j hj hlen
      · exact ih hmemL hndL _

/-- The friction block of an active contact after the whole update loop
is exactly its disk projection. -/
theorem moreauUpdatePT_map_block (m : MoreauModel nq nu nla_g nla_gamma nla_N nla_T)
    (tk1 : ℝ) (qk1 : Fin nq → ℝ) (uk uk1 : Fin nu → ℝ)
    (act : Fin nla_N → Prop) (PT : Fin nla_T → ℝ) (PN1 : Fin nla_N → ℝ)
    (hdisj : ∀ i j, i ≠ j → ∀ a, a ∈ m.NT_connectivity i → a ∉ m.NT_connectivity j)
    (iN : Fin nla_N) (hact : act iN) (hnd : (m.NT_connectivity iN).Nodup) :
    (m.NT_connectivity iN).map (moreauUpdatePT m tk1 qk1 uk uk1 act PT PN1)
      = moreauPTVals m tk1 qk1 uk uk1 PT PN1 iN := by
  have hlen : (moreauPTVals m tk1 qk1 uk uk1 PT PN1 iN).length
      = (m.NT_connectivity iN).length := by
    unfold moreauPTVals
    rw [prox_circle_length, List.length_map]
  have h1 : ∀ j ∈ m.NT_connectivity iN,
      moreauUpdatePT m tk1 qk1 uk uk1 act PT PN1 j
        = scatterBlock PT (m.NT_connectivity iN)
            (moreauPTVals m tk1 qk1 uk uk1 PT PN1 iN) j := fun j hj =>
    moreauPTFold_block m tk1 qk1 uk uk1 act PT PN1 hdisj iN hact j hj
      (List.finRange nla_N) (List.mem_finRange iN) (List.nodup_finRange _) PT
  rw [List.map_congr_left h1]
  exact map_scatterBlock PT _ _ hnd hlen

/-- A converged fixed-point iteration returns impulses of the shape the
converging round produced: the prox-updated normal impulses restricted
to the active set and the prox-updated friction impulses restricted to
the active tangential set, for some iterate. -/
theorem moreauFixPoint_converged_shape
    (m : MoreauModel nq nu nla_g nla_gamma nla_N nla_T)
    (tk1 : ℝ) (qk1 : Fin nq → ℝ) (uk : Fin nu → ℝ)
    (act : Fin nla_N → Prop) (actT : Fin nla_T → Prop)
    (A : Matrix (TriIdx nu nla_g nla_gamma) (TriIdx nu nla_g nla_gamma) ℝ) :
    ∀ (fuel j : ℕ) (e : ℝ) (uk1 : Fin nu → ℝ) (lg : Fin nla_g → ℝ)
      (lc : Fin nla_gamma → ℝ) (PN : Fin nla_N → ℝ) (PT : Fin nla_T → ℝ),
      (moreauFixPoint m tk1 qk1 uk act actT A fuel j e uk1 lg lc PN PT).converged = true →
      ∃ (u1 : Fin nu → ℝ) (PN0 : Fin nla_N → ℝ) (PT0 : Fin nla_T → ℝ),
        (moreauFixPoint m tk1 qk1 uk act actT A fuel j e uk1 lg lc PN PT).P_Nk1
            = maskVec act (moreauUpdatePN m tk1 qk1 uk u1 act PN0)
          ∧ (moreauFixPoint m tk1 qk1 uk act actT A fuel j e uk1 lg lc PN PT).P_Tk1
              = maskVec actT (moreauUpdatePT m tk1 qk1 uk u1 act PT0
                  (moreauUpdatePN m tk1 qk1 uk u1 act PN0)) := by
  intro fuel
  induction fuel with
  | zero =>
      intro j e uk1 lg lc PN PT h
      exact absurd h (by simp [moreauFixPoint])
  | succ fuel ih =>
      intro j e uk1 lg lc PN PT h
      simp only [moreauFixPoint] at h ⊢
      split_ifs at h ⊢
      · exact ⟨uk1, PN, PT, rfl, rfl⟩
      · exact ih _ _ _ _ _ _ _ h

/-- C5: in every converged Moreau step (non-negative friction
coefficients; the connectivity table assigning disjoint, duplicate-free
friction blocks), the returned contact impulses are admissible: every
normal impulse component is non-negative, active components being images
of the projection onto the non-negative cone and inactive components
exactly zero, and each friction block's Euclidean norm is at most `mu`
times its associated normal impulse. -/
theorem moreau_impulse_admissibility
    (m : MoreauModel nq nu nla_g nla_gamma nla_N nla_T)
    (s : MoreauState nq nu nla_g nla_gamma nla_N nla_T)
    (hconv : (moreauStepFixedPoint m s).converged = true)
    (hmu : ∀ i, 0 ≤ m.mu i)
    (hdisj : ∀ i j, i ≠ j → ∀ a, a ∈ m.NT_connectivity i → a ∉ m.NT_connectivity j)
    (hnd : ∀ i, (m.NT_connectivity i).Nodup) :
    (∀ i, 0 ≤ (moreauStepFixedPoint m s).P_Nk1 i)
      ∧ (∀ i, ¬moreauActiveN m s i → (moreauStepFixedPoint m s).P_Nk1 i = 0)
      ∧ (∀ i, moreauActiveN m s i →
          ∃ a, (moreauStepFixedPoint m s).P_Nk1 i = prox_Rn0 a)
      ∧ (∀ iN, blockNorm (m.NT_connectivity iN) (moreauStepFixedPoint m s).P_Tk1
            ≤ m.mu iN * (moreauStepFixedPoint m s).P_Nk1 iN) := by
  by_cases hex : ∃ i, moreauActiveN m s i
  · have hstep : moreauStepFixedPoint m s
        = moreauFixPoint m (s.tk + m.dt) (moreauQPred m s) s.uk
            (moreauActiveN m s) (moreauActiveT m s)
            (moreauA m (s.tk + m.dt) (moreauQPred m s)) m.fix_point_max_iter 0 0
            (fun i => moreauFirstSolve m s (.inl i))
            (fun ig => moreauFirstSolve m s (.inr (.inl ig)))
            (fun ic => moreauFirstSolve m s (.inr (.inr ic))) s.P_Nk s.P_Tk := by
      simp only [moreauStepFixedPoint]
      rw [if_pos hex]
    rw [hstep] at hconv ⊢
    obtain ⟨u1, PN0, PT0, hPN, hPT⟩ :=
      moreauFixPoint_converged_shape m (s.tk + m.dt) (moreauQPred m s) s.uk
        (moreauActiveN m s) (moreauActiveT m s)
        (moreauA m (s.tk + m.dt) (moreauQPred m s)) m.fix_point_max_iter 0 0
        (fun i => moreauFirstSolve m s (.inl i))
        (fun ig => moreauFirstSolve m s (.inr (.inl ig)))
        (fun ic => moreauFirstSolve m s (.inr (.inr ic))) s.P_Nk s.P_Tk hconv
    rw [hPN, hPT]
    set PN1 := moreauUpdatePN m (s.tk + m.dt) (moreauQPred m s) s.uk u1
      (moreauActiveN m s) PN0 with hPN1def
    refine ⟨fun i => ?_, fun i hi => ?_, fun i hi => ?_, fun iN => ?_⟩
    · unfold maskVec
      split_ifs with hi
      · rw [hPN1def]
        unfold moreauUpdatePN
        rw [if_pos hi]
        exact prox_Rn0_nonneg _
      · exact le_rfl
    · unfold maskVec
      rw [if_neg hi]
    · refine ⟨PN0 i - m.prox_r_N i
        * m.xi_N (s.tk + m.dt) (moreauQPred m s) s.uk u1 i, ?_⟩
      unfold maskVec
      rw [if_pos hi, hPN1def]
      unfold moreauUpdatePN
      rw [if_pos hi]
    · have hPNnn : ∀ i, moreauActiveN m s i → 0 ≤ PN1 i := by
        intro i hi
        rw [hPN1def]
        unfold moreauUpdatePN
        rw [if_pos hi]
        exact prox_Rn0_nonneg _
      by_cases hact : moreauActiveN m s iN
      · have hmask : maskVec (moreauActiveN m s) PN1 iN = PN1 iN := if_pos hact
        rw [hmask]
        have hmemmask : ∀ j ∈ m.NT_connectivity iN,
            maskVec (moreauActiveT m s)
              (moreauUpdatePT m (s.tk + m.dt) (moreauQPred m s) s.uk u1
                (moreauActiveN m s) PT0 PN1) j
              = moreauUpdatePT m (s.tk + m.dt) (moreauQPred m s) s.uk u1
                  (moreauActiveN m s) PT0 PN1 j := by
          intro j hj
          exact if_pos ⟨iN, hact, hj⟩
        unfold blockNorm
        rw [List.map_congr_left hmemmask,
          moreauUpdatePT_map_block m (s.tk + m.dt) (moreauQPred m s) s.uk u1
            (moreauActiveN m s) PT0 PN1 hdisj iN hact (hnd iN)]
        unfold moreauPTVals
        exact prox_circle_norm_le _ _ (mul_nonneg (hmu iN) (hPNnn iN hact))
      · have hzero : ∀ j ∈ m.NT_connectivity iN,
            maskVec (moreauActiveT m s)
              (moreauUpdatePT m (s.tk + m.dt) (moreauQPred m s) s.uk u1
                (moreauActiveN m s) PT0 PN1) j = 0 := by
          intro j hj
          refine if_neg ?_
          rintro ⟨i', hi', hj'⟩
          by_cases hii : i' = iN
          · exact hact (hii ▸ hi')
          · exact hdisj i' iN hii j hj' hj
        rw [blockNorm_eq_zero _ _ hzero]
        have : maskVec (moreauActiveN m s) PN1 iN = 0 := if_neg hact
        rw [this, mul_zero]
  · have hstep : moreauStepFixedPoint m s
        = ⟨true, 0, 0, s.tk + m.dt, moreauQPred m s,
            (fun i => moreauFirstSolve m s (.inl i)),
            (fun ig => moreauFirstSolve m s (.inr (.inl ig))),
            (fun ic => moreauFirstSolve m s (.inr (.inr ic))),
            fun _ => 0, fun _ => 0⟩ := by
      simp only [moreauStepFixedPoint]
      rw [if_neg hex]
    rw [hstep]
    refine ⟨fun i => le_refl 0, fun i _ => rfl, fun i hi => absurd ⟨i, hi⟩ hex,
      fun iN => ?_⟩
    rw [blockNorm_eq_zero _ _ fun j _ => rfl, mul_zero]

/-- A fixed-point round whose impulse change is already below tolerance
converges immediately. -/
theorem moreauFixPoint_one_round (m : MoreauModel nq nu nla_g nla_gamma nla_N nla_T)
    (tk1 : ℝ) (qk1 : Fin nq → ℝ) (uk : Fin nu → ℝ)
    (act : Fin nla_N → Prop) (actT : Fin nla_T → Prop)
    (A : Matrix (TriIdx nu nla_g nla_gamma) (TriIdx nu nla_g nla_gamma) ℝ)
    (fuel j : ℕ) (e : ℝ) (uk1 : Fin nu → ℝ) (lg : Fin nla_g → ℝ)
    (lc : Fin nla_gamma → ℝ) (PN : Fin nla_N → ℝ) (PT : Fin nla_T → ℝ)
    (hlt : maxAbsList (moreauResidual m act PN
        (moreauUpdatePN m tk1 qk1 uk uk1 act PN) PT
        (moreauUpdatePT m tk1 qk1 uk uk1 act PT
          (moreauUpdatePN m tk1 qk1 uk uk1 act PN))) < m.fix_point_tol) :
    (moreauFixPoint m tk1 qk1 uk act actT A (fuel + 1) j e uk1 lg lc PN PT).converged
      = true := by
  simp only [moreauFixPoint]
  rw [if_pos hlt]

/-- Witness for C5: in the one-contact model `mAct` the contact is
active, the fixed-point iteration converges in its first round, and the
returned impulses are admissible. -/
theorem moreau_impulse_admissibility_witness :
    (∀ i, 0 ≤ (moreauStepFixedPoint mAct sAct).P_Nk1 i)
      ∧ (∀ iN, blockNorm (mAct.NT_connectivity iN) (moreauStepFixedPoint mAct sAct).P_Tk1
            ≤ mAct.mu iN * (moreauStepFixedPoint mAct sAct).P_Nk1 iN) := by
  have hact0 : moreauActiveN mAct sAct 0 := by
    show mAct.g_N (sAct.tk + mAct.dt) (moreauQPred mAct sAct) 0 ≤ 0
    norm_num [mAct]
  have hupd : ∀ u1 : Fin 0 → ℝ,
      moreauUpdatePN mAct (sAct.tk + mAct.dt) (moreauQPred mAct sAct) sAct.uk u1
        (moreauActiveN mAct sAct) sAct.P_Nk 0 = 0 := by
    intro u1
    unfold moreauUpdatePN
    rw [if_pos hact0]
    show prox_Rn0 (0 - 1 * 0) = 0
    norm_num [prox_Rn0]
  have hres : ∀ u1 : Fin 0 → ℝ,
      moreauResidual mAct (moreauActiveN mAct sAct) sAct.P_Nk
          (moreauUpdatePN mAct (sAct.tk + mAct.dt) (moreauQPred mAct sAct) sAct.uk u1
            (moreauActiveN mAct sAct) sAct.P_Nk)
          sAct.P_Tk
          (moreauUpdatePT mAct (sAct.tk + mAct.dt) (moreauQPred mAct sAct) sAct.uk u1
            (moreauActiveN mAct sAct) sAct.P_Tk
            (moreauUpdatePN mAct (sAct.tk + mAct.dt) (moreauQPred mAct sAct) sAct.uk u1
              (moreauActiveN mAct sAct) sAct.P_Nk))
        = [0] := by
    intro u1
    unfold moreauResidual
    rw [show List.finRange 1 = [(0 : Fin 1)] from rfl]
    rw [List.filter_cons, List.filter_nil]
    rw [decide_eq_true hact0]
    simp only [if_true, List.map_cons, List.map_nil]
    rw [List.flatMap_cons, List.flatMap_nil]
    rw [if_pos hact0]
    rw [show mAct.NT_connectivity 0 = [] from rfl]
    simp only [List.nil_append, List.append_nil, List.map_nil]
    rw [hupd u1, show sAct.P_Nk 0 = 0 from rfl]
    norm_num
  have hconv : (moreauStepFixedPoint mAct sAct).converged = true := by
    simp only [moreauStepFixedPoint]
    rw [if_pos ⟨0, hact0⟩]
    refine moreauFixPoint_one_round mAct _ _ _ _ _ _ 0 0 0 _ _ _ _ _ ?_
    rw [hres _]
    show maxAbsList [0] < mAct.fix_point_tol
    have h0 : maxAbsList [0] = 0 := by norm_num [maxAbsList]
    rw [h0]
    exact one_pos
  have h := moreau_impulse_admissibility mAct sAct hconv (fun _ => le_rfl)
    (fun i j _ a ha => absurd ha (List.not_mem_nil a))
    (fun _ => List.nodup_nil)
  exact ⟨h.1, h.2.2.2⟩

end Cardillo
